import Mathlib

/-!
Verification development for the Pro-Football-Reference ingestion pipeline
(`nfl_data.py`): URL/query synthesis (`build_pfr_url`), the offset-advance
helper (`increase_url_offset`), the pagination walk and row normalization
(`pfr_url_to_df`), and the aggregation driver (`__main__`).

Strings are modelled as lists of characters (`Str`); the Python standard
library pieces the code relies on (`urlencode`, `urlparse`, `parse_qs`,
`str.split`, `int`, `str`) are embedded as executable Lean functions below.
-/

/-- Strings of the embedding: a Python `str` as its list of characters. -/
abbrev Str := List Char

namespace PyStr

/-- Python single-character `s.split(sep)`: splits `s` at every occurrence of
the character `sep`; always returns at least one (possibly empty) piece. -/
def splitOnChar (sep : Char) : Str → List Str
  | [] => [[]]
  | ch :: rest =>
      match splitOnChar sep rest with
      | [] => [[ch]]
      | s :: ss => if ch = sep then [] :: s :: ss else (ch :: s) :: ss

/-- Inverse of `splitOnChar`: joins pieces with the separator character
(Python `sep.join(pieces)`), empty on the empty list of pieces. -/
def joinSep (sep : Char) : List Str → Str
  | [] => []
  | [x] => x
  | x :: y :: ys => x ++ sep :: joinSep sep (y :: ys)

/-- First-match association lookup, the behaviour of indexing a mapping built
with earlier entries shadowing later duplicates. -/
def assocGet {α : Type} (r : List (Str × α)) (k : Str) : Option α :=
  match r with
  | [] => none
  | (k', v) :: rest => if k' = k then some v else assocGet rest k

end PyStr

namespace PyNum
open PyStr

/-- The decimal digit characters used by Python's integer rendering. -/
def digitChar (d : Nat) : Char :=
  if d = 0 then '0' else if d = 1 then '1' else if d = 2 then '2'
  else if d = 3 then '3' else if d = 4 then '4' else if d = 5 then '5'
  else if d = 6 then '6' else if d = 7 then '7' else if d = 8 then '8' else '9'

/-- Value of a decimal digit character, `none` on a non-digit. -/
def digitVal (c : Char) : Option Nat :=
  if c = '0' then some 0 else if c = '1' then some 1 else if c = '2' then some 2
  else if c = '3' then some 3 else if c = '4' then some 4 else if c = '5' then some 5
  else if c = '6' then some 6 else if c = '7' then some 7 else if c = '8' then some 8
  else if c = '9' then some 9 else none

/-- Accumulator-style decimal evaluation of a digit string; `none` as soon as a
non-digit character appears. -/
def digitsToNat (acc : Nat) : Str → Option Nat
  | [] => some acc
  | c :: rest =>
      match digitVal c with
      | none => none
      | some d => digitsToNat (acc * 10 + d) rest

/-- Fuel-indexed decimal rendering of a natural number (most significant digit
first); the fuel only bounds recursion depth and is irrelevant once above `n`. -/
def natToStrAux : Nat → Nat → Str
  | 0, _ => []
  | fuel + 1, n =>
      if n < 10 then [digitChar n]
      else natToStrAux fuel (n / 10) ++ [digitChar (n % 10)]

/-- Python `str` on a natural number. -/
def natToStr (n : Nat) : Str := natToStrAux (n + 1) n

/-- Python `str` on an `int`: a minus sign followed by the decimal digits for
negative values, plain decimal digits otherwise. -/
def intToStr (i : Int) : Str :=
  if i < 0 then '-' :: natToStr (-i).toNat else natToStr i.toNat

/-- Parse a nonempty all-digit string as a natural number. -/
def parseDigits (s : Str) : Option Nat :=
  match s with
  | [] => none
  | _ :: _ => digitsToNat 0 s

/-- Python `int` on a string: an optional sign followed by decimal digits;
anything else fails. -/
def str_to_int (s : Str) : Option Int :=
  match s with
  | [] => none
  | c :: rest =>
      if c = '-' then (parseDigits rest).map (fun n => -(n : Int))
      else if c = '+' then (parseDigits rest).map (fun n => (n : Int))
      else (parseDigits (c :: rest)).map (fun n => (n : Int))

/-- Decimal-fraction parse underlying the model of `pd.to_numeric`: digits with
an optional single decimal point. Scientific notation, underscores and
surrounding whitespace accepted by pandas are outside this model. -/
def parseUnsignedRat (s : Str) : Option Rat :=
  match splitOnChar '.' s with
  | [a] => (parseDigits a).map (fun n => (n : Rat))
  | [a, b] =>
      match parseDigits a, parseDigits b with
      | some i, some f => some ((i : Rat) + (f : Rat) / ((10 : Rat) ^ b.length))
      | _, _ => none
  | _ => none

/-- The numeric coercion attempted by the `pd.to_numeric` converters: optional
sign, then a decimal-fraction literal; `none` when the value is not numeric. -/
def str_to_rat (s : Str) : Option Rat :=
  match s with
  | [] => none
  | c :: rest =>
      if c = '-' then (parseUnsignedRat rest).map Neg.neg
      else if c = '+' then parseUnsignedRat rest
      else parseUnsignedRat (c :: rest)

/-- The date coercion attempted by the `pd.to_datetime` converter, modelled on
ISO `YYYY-MM-DD` strings; `none` when the value does not parse as a date. -/
def str_to_date (s : Str) : Option (Nat × Nat × Nat) :=
  match splitOnChar '-' s with
  | [y, m, d] =>
      match parseDigits y, parseDigits m, parseDigits d with
      | some a, some b, some c =>
          if 1 ≤ b ∧ b ≤ 12 ∧ 1 ≤ c ∧ c ≤ 31 then some (a, b, c) else none
      | _, _, _ => none
  | _ => none

end PyNum

namespace UrlLib
open PyStr

/-- Python `urllib.parse.urlencode` on an ordered mapping with string values
already rendered: joins `key=value` pairs with ampersands. Percent-encoding is
not modelled; every character reaching it in this pipeline is URL-safe. -/
def urlencode (q : List (Str × Str)) : Str :=
  joinSep '&' (q.map fun kv => kv.1 ++ '=' :: kv.2)

/-- Python `urlencode(..., doseq=True)` on a parsed-query mapping: one
`key=value` pair per element of each value list, in mapping order. -/
def urlencode_doseq (q : List (Str × List Str)) : Str :=
  joinSep '&' (q.map (fun kv => kv.2.map fun v => kv.1 ++ '=' :: v)).flatten

/-- Python `urllib.parse.parse_qsl` with default arguments: split the query on
ampersands, split each chunk at its first equals sign, and drop chunks without
an equals sign or with a blank value. -/
def parse_qsl (qs : Str) : List (Str × Str) :=
  (splitOnChar '&' qs).filterMap fun nv =>
    match splitOnChar '=' nv with
    | [] => none
    | [_] => none
    | k :: rest =>
        if joinSep '=' rest = [] then none else some (k, joinSep '=' rest)

/-- Insertion into the `parse_qs` result dictionary: append to the value list
of an existing key, otherwise add the key at the end (Python dict order). -/
def addQsPair (d : List (Str × List Str)) (k v : Str) : List (Str × List Str) :=
  match d with
  | [] => [(k, [v])]
  | (k', vs) :: rest =>
      if k' = k then (k', vs ++ [v]) :: rest else (k', vs) :: addQsPair rest k v

/-- Python `urllib.parse.parse_qs`: the pairs of `parse_qsl` grouped into an
insertion-ordered dictionary from key to list of values. -/
def parse_qs (qs : Str) : List (Str × List Str) :=
  (parse_qsl qs).foldl (fun d kv => addQsPair d kv.1 kv.2) []

/-- In-place replacement of the value list of an existing key, preserving the
dictionary order (the effect of mutating `query_args[k]`). -/
def qsSet (d : List (Str × List Str)) (k : Str) (newVs : List Str) :
    List (Str × List Str) :=
  match d with
  | [] => []
  | (k', vs) :: rest =>
      if k' = k then (k', newVs) :: rest else (k', vs) :: qsSet rest k newVs

/-- The part of Python `urllib.parse.urlparse` this pipeline relies on: the
URL split at its first question mark into a prefix (scheme, host and path) and
the query string. Fragments and path parameters never occur here. -/
def urlparse (url : Str) : Str × Str :=
  match splitOnChar '?' url with
  | [] => (url, [])
  | [p] => (p, [])
  | p :: rest => (p, joinSep '?' rest)

/-- Python `urllib.parse.urlunparse` restricted to the same shape: re-attach a
query string to the prefix, with no question mark when the query is empty. -/
def urlunparse (pre q : Str) : Str :=
  if q = [] then pre else pre ++ '?' :: q

/-- A value string that survives a `parse_qs` round trip: nonempty (blank
values are dropped) and ampersand-free. -/
abbrev goodVal (v : Str) : Prop := v ≠ [] ∧ '&' ∉ v

/-- A key string that survives a `parse_qs` round trip: free of ampersands and
equals signs. -/
abbrev goodKey (k : Str) : Prop := '&' ∉ k ∧ '=' ∉ k

/-- Normal form of a parsed-query dictionary: distinct keys in insertion
order, nonempty value lists, and round-trip-safe keys and values. Every
`parse_qs` output has this shape. -/
def QsNF (d : List (Str × List Str)) : Prop :=
  (d.map Prod.fst).Nodup ∧
    ∀ kv ∈ d, goodKey kv.1 ∧ kv.2 ≠ [] ∧ ∀ v ∈ kv.2, goodVal v

/-- The pairs of a parsed-query dictionary flattened back out, one pair per
value, in dictionary order. -/
def qsFlat (d : List (Str × List Str)) : List (Str × Str) :=
  (d.map (fun kv => kv.2.map fun v => (kv.1, v))).flatten

/-- A scalar query mapping lifted to the `parse_qs` value-list shape. -/
def qsSingles (q : List (Str × Str)) : List (Str × List Str) :=
  q.map fun kv => (kv.1, [kv.2])

end UrlLib

namespace NflData
open PyStr PyNum

/-- The exceptions `increase_url_offset` can raise: `keyError` when the parsed
query has no `offset` entry (`query_args['offset']`), `valueError` when its
first value does not parse as an integer (`int(...)`). The spec groups both as
the MalformedQuery error. -/
inductive UrlErr where
  | keyError
  | valueError
deriving DecidableEq, Repr

def offsetKey : Str := "offset".toList

/-- Embedding of `increase_url_offset` from `nfl_data.py`: parse the URL,
parse its query, add `increase` (the call sites use the default 100) to the
first `offset` value, re-encode and reassemble the URL. -/
def increase_url_offset (url : Str) (increase : Int) : Except UrlErr Str :=
  let url_parts := UrlLib.urlparse url
  let query_args := UrlLib.parse_qs url_parts.2
  match assocGet query_args offsetKey with
  | none => .error .keyError
  | some vs =>
      match vs with
      | [] => .error .keyError
      | v :: rest =>
          match str_to_int v with
          | none => .error .valueError
          | some n =>
              let query_args' :=
                UrlLib.qsSet query_args offsetKey (intToStr (n + increase) :: rest)
              .ok (UrlLib.urlunparse url_parts.1 (UrlLib.urlencode_doseq query_args'))

/-- The integer value of the first `offset` query parameter of a URL, when a
parseable one exists. -/
def offsetOf (url : Str) : Option Int :=
  match assocGet (UrlLib.parse_qs (UrlLib.urlparse url).2) offsetKey with
  | some (v :: _) => str_to_int v
  | _ => none

/-- Iterated application of `increase_url_offset` with the default increment. -/
def advanceN : Nat → Str → Except UrlErr Str
  | 0, u => .ok u
  | k + 1, u =>
      match increase_url_offset u 100 with
      | .error e => .error e
      | .ok u' => advanceN k u'

/-- The payload of one `Position` enumeration member: the comparison-stat key,
the sort key and the destination table name. -/
structure PositionInfo where
  cstat : Str
  order_by : Str
  name : Str
deriving DecidableEq, Repr

/-- The `Position` enumeration of `nfl_data.py`, in declaration order. -/
inductive Position where
  | QB
  | RB
  | REC
  | DEF
deriving DecidableEq, Repr

/-- The dictionary value attached to each `Position` member. -/
def Position.val : Position → PositionInfo
  | .QB => ⟨"pass_att".toList, "pass_rating".toList, "quarterbacks".toList⟩
  | .RB => ⟨"rush_att".toList, "rush_yds".toList, "runningbacks".toList⟩
  | .REC => ⟨"rec".toList, "rec_yds".toList, "receivers".toList⟩
  | .DEF => ⟨"tackles_solo".toList, "sacks".toList, "defense".toList⟩

def pfrBase : Str :=
  "https://www.pro-football-reference.com/play-index/pgl_finder.cgi".toList

/-- The ordered query dictionary assembled by `build_pfr_url`, with the integer
values already rendered the way `urlencode` renders them. -/
def pfrQuery (year week : Int) (position : Position) (offset : Int) :
    List (Str × Str) :=
  [("request".toList, "1".toList),
   ("match".toList, "game".toList),
   ("year_min".toList, intToStr year),
   ("year_max".toList, intToStr year),
   ("season_start".toList, "1".toList),
   ("season_end".toList, "-1".toList),
   ("age_min".toList, "0".toList),
   ("age_max".toList, "99".toList),
   ("game_type".toList, "A".toList),
   ("game_num_min".toList, "0".toList),
   ("game_num_max".toList, "99".toList),
   ("week_num_min".toList, intToStr week),
   ("week_num_max".toList, intToStr week),
   ("c1stat".toList, position.val.cstat),
   ("c1comp".toList, "gt".toList),
   ("c1val".toList, "1".toList),
   ("order_by".toList, position.val.order_by),
   ("from_link".toList, "1".toList),
   ("offset".toList, intToStr offset)]

/-- Embedding of `build_pfr_url` from `nfl_data.py`. -/
def build_pfr_url (year week : Int) (position : Position) (offset : Int) : Str :=
  pfrBase ++ '/' :: '?' :: UrlLib.urlencode (pfrQuery year week position offset)

/-- The entries of `pfrQuery` before the trailing `offset` parameter. -/
def pfrInit (year week : Int) (position : Position) : List (Str × Str) :=
  [("request".toList, "1".toList),
   ("match".toList, "game".toList),
   ("year_min".toList, intToStr year),
   ("year_max".toList, intToStr year),
   ("season_start".toList, "1".toList),
   ("season_end".toList, "-1".toList),
   ("age_min".toList, "0".toList),
   ("age_max".toList, "99".toList),
   ("game_type".toList, "A".toList),
   ("game_num_min".toList, "0".toList),
   ("game_num_max".toList, "99".toList),
   ("week_num_min".toList, intToStr week),
   ("week_num_max".toList, intToStr week),
   ("c1stat".toList, position.val.cstat),
   ("c1comp".toList, "gt".toList),
   ("c1val".toList, "1".toList),
   ("order_by".toList, position.val.order_by),
   ("from_link".toList, "1".toList)]

/-- The fixed key list of the `build_pfr_url` query, independent of the
season, week, position and offset arguments. -/
def pfrKeys : List Str :=
  ["request".toList, "match".toList, "year_min".toList, "year_max".toList,
   "season_start".toList, "season_end".toList, "age_min".toList, "age_max".toList,
   "game_type".toList, "game_num_min".toList, "game_num_max".toList,
   "week_num_min".toList, "week_num_max".toList, "c1stat".toList, "c1comp".toList,
   "c1val".toList, "order_by".toList, "from_link".toList, "offset".toList]

/-- The value list of the `build_pfr_url` query, in entry order. -/
def pfrVals (year week : Int) (p : Position) (offset : Int) : List Str :=
  ["1".toList, "game".toList, intToStr year, intToStr year, "1".toList,
   "-1".toList, "0".toList, "99".toList, "A".toList, "0".toList, "99".toList,
   intToStr week, intToStr week, p.val.cstat, "gt".toList, "1".toList,
   p.val.order_by, "1".toList, intToStr offset]

/-- A typed cell of the extracted table: the result of a numeric coercion, a
date coercion, or the raw string when no coercion applies or it fails. -/
inductive Cell where
  | num (q : Rat)
  | date (yr mo dy : Nat)
  | str (s : Str)
deriving DecidableEq, Repr

/-- The column labels of the `converters` dictionary of `pfr_url_to_df` that
are coerced with `pd.to_numeric`. -/
def numericCols : List Str :=
  ["Rk".toList, "Age".toList, "G#".toList, "Week".toList, "Cmp".toList,
   "Att".toList, "Cmp%".toList, "Yds".toList, "TD".toList, "Int".toList,
   "Rate".toList, "Sk".toList, "Yds.1".toList, "Y/A".toList, "AY/A".toList]

/-- The column label coerced with `pd.to_datetime` in the `converters`
dictionary. -/
def dateCol : Str := "Date".toList

/-- One cell through the `converters` dictionary: `pd.to_numeric(x,
errors='ignore')` on the named numeric columns, `pd.to_datetime(x,
errors='ignore')` on the date column and the identity elsewhere; a failed
coercion leaves the original string. -/
def convertCell (col : Str) (v : Str) : Cell :=
  if col ∈ numericCols then
    match str_to_rat v with
    | some q => .num q
    | none => .str v
  else if col = dateCol then
    match str_to_date v with
    | some d => .date d.1 d.2.1 d.2.2
    | none => .str v
  else .str v

/-- A raw extracted row: column label to raw string, in column order. -/
abbrev RawRow := List (Str × Str)

/-- A typed row: column label to typed cell, in column order. -/
abbrev Row := List (Str × Cell)

/-- A raw extracted table as `pd.read_html` structures it before converters:
the column labels and the label-indexed rows. -/
structure RawTable where
  cols : List Str
  rows : List RawRow
deriving DecidableEq, Repr

/-- A typed table: column labels plus label-indexed typed rows. -/
structure Table where
  cols : List Str
  rows : List Row
deriving DecidableEq, Repr

/-- What one `session.get` observation contributes to the walk: whether the
page content contains the literal marker substring `Next Page`, and the first
extracted table of the content. The HTTP transport and the markup parser are
external collaborators, so a walk is parameterized by this oracle. -/
structure RawPage where
  hasNext : Bool
  table : RawTable
deriving DecidableEq, Repr

def convertRow (r : RawRow) : Row :=
  r.map fun kv => (kv.1, convertCell kv.1 kv.2)

/-- The per-cell converters applied by `pd.read_html(..., converters=...)`. -/
def applyConverters (t : RawTable) : Table :=
  ⟨t.cols, t.rows.map convertRow⟩

/-- Column-label union in first-appearance order, the column result of
`pd.concat` on label-indexed frames. -/
def unionCols (c1 c2 : List Str) : List Str :=
  c1 ++ c2.filter fun c => !decide (c ∈ c1)

/-- `pd.concat([t1, t2])`: rows appended in order (each row keeps its own
labels), columns the union of both column sets. -/
def concatTables (t1 t2 : Table) : Table :=
  ⟨unionCols t1.cols t2.cols, t1.rows ++ t2.rows⟩

def playerLabel : Str := "Player".toList

def unnamedLabel : Str := "Unnamed: 7".toList

/-- The exceptions the embedded walk can surface: loop fuel exhausted (the
Python `while` just keeps going), an `increase_url_offset` error, the
`AttributeError` of `df.Player` on a frame without a `Player` column, and the
`KeyError` of `df.drop` on a frame without an `Unnamed: 7` column. -/
inductive WalkErr where
  | fuelOut
  | urlErr (e : UrlErr)
  | playerMissing
  | unnamedMissing
deriving DecidableEq, Repr

/-- The row predicate of `df.loc[df.Player != 'Player']`: true when the row's
`Player` cell is not the literal header token (absent cells compare unequal
and are kept, matching pandas). -/
def keepRow (r : Row) : Bool :=
  !decide (assocGet r playerLabel = some (.str playerLabel))

/-- The header-repeat filter `df.loc[df.Player != 'Player']`: raises when the
frame has no `Player` column, otherwise keeps the rows whose `Player` cell is
not the literal header token. -/
def playerFilter (t : Table) : Except WalkErr Table :=
  if playerLabel ∈ t.cols then
    .ok ⟨t.cols, t.rows.filter keepRow⟩
  else .error .playerMissing

/-- `df.infer_objects()` re-infers column dtypes and leaves every value
unchanged, so on this value-level model it is the identity. -/
def infer_objects (t : Table) : Table := t

/-- Removal of the `Unnamed: 7` label from one row, the per-row effect of
`df.drop('Unnamed: 7', axis='columns')`. -/
def dropColFromRow (r : Row) : Row :=
  r.filter fun kv => !decide (kv.1 = unnamedLabel)

/-- `df.drop('Unnamed: 7', axis='columns')`: raises a `KeyError` when the
column is absent, otherwise removes that label from the column list and from
every row. -/
def dropUnnamed (t : Table) : Except WalkErr Table :=
  if unnamedLabel ∈ t.cols then
    .ok ⟨t.cols.filter fun c => !decide (c = unnamedLabel),
         t.rows.map dropColFromRow⟩
  else .error .unnamedMissing

/-- The `while 'Next Page' in text` loop of `pfr_url_to_df`: as long as the
current page content carries the marker, advance the offset, fetch the next
page, extract-and-convert it and concatenate it onto the frame. The fuel
argument only bounds the iteration count of the unbounded Python loop. -/
def walkLoop (fetch : Str → RawPage) :
    Nat → Str → Bool → Table → List Str → Except WalkErr (Table × List Str)
  | 0, _, hasNext, df, fetched =>
      if hasNext then .error .fuelOut else .ok (df, fetched)
  | fuel + 1, url, hasNext, df, fetched =>
      if hasNext then
        match increase_url_offset url 100 with
        | .error e => .error (.urlErr e)
        | .ok nextUrl =>
            walkLoop fetch fuel nextUrl (fetch nextUrl).hasNext
              (concatTables df (applyConverters (fetch nextUrl).table))
              (fetched ++ [nextUrl])
      else .ok (df, fetched)

/-- Embedding of `pfr_url_to_df` from `nfl_data.py`, parameterized by the
fetch oracle: fetch and extract the first page, walk the pagination loop,
filter header-repeat rows, re-infer dtypes and drop the malformed column.
Besides the frame it returns the list of URLs fetched, in order. -/
def pfr_url_to_df (fetch : Str → RawPage) (fuel : Nat) (url : Str) :
    Except WalkErr (Table × List Str) := do
  let firstPage := fetch url
  let walked ← walkLoop fetch fuel url firstPage.hasNext
    (applyConverters firstPage.table) [url]
  let filtered ← playerFilter walked.1
  let inferred := infer_objects filtered
  let dropped ← dropUnnamed inferred
  pure (dropped, walked.2)

/-- The module-level season list of `nfl_data.py`. -/
def years : List Int :=
  [2010, 2011, 2012, 2013, 2014, 2015, 2016, 2017, 2018, 2019]

/-- The module-level week list of `nfl_data.py`. -/
def weeks : List Int :=
  [1, 2, 3, 4, 5, 6, 7, 8, 9, 10, 11, 12, 13, 14, 15, 16, 17]

/-- `itertools.product(years, weeks, [position])` projected to the varying
components: seasons outer, weeks inner. -/
def yearWeekPairs : List (Int × Int) :=
  years.flatMap fun y => weeks.map fun w => (y, w)

/-- Observable actions of the driver: one page fetch, or one `to_sql` write of
a frame to a named table. -/
inductive Event where
  | fetchEv (url : Str)
  | persistEv (table : Str) (t : Table)
deriving DecidableEq, Repr

/-- `pd.DataFrame()`, the empty accumulator each position sweep starts from. -/
def emptyTable : Table := ⟨[], []⟩

/-- The inner loop of `__main__` for one position: for each (year, week) pair
run `pfr_url_to_df` on the freshly built URL and concatenate onto the
accumulator; the first raised exception aborts. Returns the final accumulator
and all fetched URLs in order. -/
def sweep (fetch : Str → RawPage) (fuel : Nat) (p : Position) :
    List (Int × Int) → Table → List Str → Except WalkErr (Table × List Str)
  | [], agg, urls => .ok (agg, urls)
  | (y, w) :: rest, agg, urls =>
      match pfr_url_to_df fetch fuel (build_pfr_url y w p 0) with
      | .error e => .error e
      | .ok r => sweep fetch fuel p rest (concatTables agg r.1) (urls ++ r.2)

/-- The outer loop of `__main__`: per position, sweep the full season/week
product and then issue one `to_sql(..., if_exists='replace')` write to that
position's table name. The result is the ordered event trace. -/
def mainLoop (fetch : Str → RawPage) (fuel : Nat) :
    List Position → Except WalkErr (List Event)
  | [] => .ok []
  | p :: rest =>
      match sweep fetch fuel p yearWeekPairs emptyTable [] with
      | .error e => .error e
      | .ok r =>
          match mainLoop fetch fuel rest with
          | .error e => .error e
          | .ok evs => .ok (r.2.map Event.fetchEv ++ Event.persistEv p.val.name r.1 :: evs)

/-- Iteration order of `for position in Position`, the declaration order of
the enumeration. -/
def positionList : List Position := [.QB, .RB, .REC, .DEF]

/-- Embedding of the `__main__` driver of `nfl_data.py`, parameterized by the
fetch oracle and loop fuel. -/
def runMain (fetch : Str → RawPage) (fuel : Nat) : Except WalkErr (List Event) :=
  mainLoop fetch fuel positionList

/-- The SQLite database as a mapping from table name to stored frame. -/
abbrev Store := List (Str × Table)

/-- `DataFrame.to_sql(name, con, if_exists='replace')`: drop any table of that
name and store the frame in its place. -/
def to_sql_replace (st : Store) (n : Str) (t : Table) : Store :=
  (n, t) :: st.filter fun kv => !decide (kv.1 = n)

def applyEvent (st : Store) : Event → Store
  | .fetchEv _ => st
  | .persistEv n t => to_sql_replace st n t

/-- Replay a driver trace against a store. -/
def applyEvents (st : Store) (evs : List Event) : Store :=
  evs.foldl applyEvent st

def Event.isPersist : Event → Bool
  | .fetchEv _ => false
  | .persistEv _ _ => true

def Event.isFetch : Event → Bool
  | .fetchEv _ => true
  | .persistEv _ _ => false

/-- A raw extracted row that repeats the header: its `Player` cell holds the
literal header token. -/
def isHeaderRow (r : RawRow) : Bool :=
  decide (assocGet r playerLabel = some playerLabel)

/-- The post-walk normalization section of `pfr_url_to_df` (filter the
header-repeat rows, re-infer dtypes, drop the malformed column), applied to
one extracted frame. -/
def normalizeTable (t : Table) : Except WalkErr Table := do
  let filtered ← playerFilter t
  let inferred := infer_objects filtered
  dropUnnamed inferred

/-- Witness oracle: a source whose every page is markerless and empty, with
the Player and Unnamed: 7 columns present. -/
def w1cols : List Str := [playerLabel, unnamedLabel]

def w1fetch : Str → RawPage := fun _ => ⟨false, ⟨w1cols, []⟩⟩

/-- Witness oracle for the two-page scenario: the page at offset 100 is the
markerless 37-row page, every other URL serves the marker-bearing 100-row
page. -/
def w2page1 : RawPage :=
  ⟨true, ⟨w1cols, List.replicate 100 [(playerLabel, "A".toList)]⟩⟩

def w2page2 : RawPage :=
  ⟨false, ⟨w1cols, List.replicate 37 [(playerLabel, "B".toList)]⟩⟩

def w2fetch : Str → RawPage := fun u =>
  if u = build_pfr_url 2019 1 Position.QB 100 then w2page2 else w2page1

end NflData

namespace PyStr

theorem splitOnChar_ne_nil (sep : Char) (s : Str) : splitOnChar sep s ≠ [] := by
  cases s with
  | nil => simp [splitOnChar]
  | cons ch rest =>
      simp only [splitOnChar]
      cases h : splitOnChar sep rest with
      | nil => simp
      | cons s ss =>
          by_cases hc : ch = sep <;> simp [hc]

theorem splitOnChar_not_sep (s : Str) (hs : sep ∉ s) : splitOnChar sep s = [s] := by
  induction s with
  | nil => rfl
  | cons ch rest ih =>
      have hch : ch ≠ sep := fun h => hs (by simp [h])
      have hrest : sep ∉ rest := fun h => hs (by simp [h])
      simp only [splitOnChar, ih hrest]
      simp [hch]

theorem splitOnChar_cons_eq {sep ch : Char} {rest : Str} {s' : Str} {ss : List Str}
    (h : splitOnChar sep rest = s' :: ss) :
    splitOnChar sep (ch :: rest) =
      if ch = sep then [] :: s' :: ss else (ch :: s') :: ss := by
  rw [splitOnChar, h]

theorem splitOnChar_cons_shape (sep : Char) (rest : Str) :
    ∃ s' ss, splitOnChar sep rest = s' :: ss := by
  cases h : splitOnChar sep rest with
  | nil => exact absurd h (splitOnChar_ne_nil sep rest)
  | cons s ss => exact ⟨s, ss, rfl⟩

theorem splitOnChar_append_sep (a b : Str) (ha : sep ∉ a) :
    splitOnChar sep (a ++ sep :: b) = a :: splitOnChar sep b := by
  induction a with
  | nil =>
      obtain ⟨s, ss, h⟩ := splitOnChar_cons_shape sep b
      rw [List.nil_append, splitOnChar_cons_eq h, if_pos rfl, h]
  | cons ch rest ih =>
      have hch : ch ≠ sep := fun h => ha (by simp [h])
      have hrest : sep ∉ rest := fun h => ha (by simp [h])
      have ih' := ih hrest
      rw [List.cons_append, splitOnChar_cons_eq ih', if_neg hch]

theorem mem_joinSep {c : Char} {l : List Str} (hc : c ∈ joinSep sep l) :
    c = sep ∨ ∃ p ∈ l, c ∈ p := by
  induction l with
  | nil => simp [joinSep] at hc
  | cons x ys ih =>
      cases ys with
      | nil =>
          simp only [joinSep] at hc
          exact Or.inr ⟨x, by simp, hc⟩
      | cons y ys' =>
          simp only [joinSep, List.mem_append, List.mem_cons] at hc
          rcases hc with hx | hx | hrest
          · exact Or.inr ⟨x, by simp, hx⟩
          · exact Or.inl hx
          · rcases ih hrest with h | ⟨p, hp, hcp⟩
            · exact Or.inl h
            · exact Or.inr ⟨p, by simp [List.mem_cons] at hp ⊢; tauto, hcp⟩

theorem splitOnChar_joinSep (sep : Char) (l : List Str) (hl : l ≠ [])
    (hfree : ∀ p ∈ l, sep ∉ p) : splitOnChar sep (joinSep sep l) = l := by
  induction l with
  | nil => exact absurd rfl hl
  | cons x ys ih =>
      cases ys with
      | nil =>
          simp only [joinSep]
          exact splitOnChar_not_sep x (hfree x (by simp))
      | cons y ys' =>
          simp only [joinSep]
          rw [splitOnChar_append_sep _ _ (hfree x (by simp))]
          rw [ih (by simp) (fun p hp => hfree p (by simp [List.mem_cons] at hp ⊢; tauto))]

theorem joinSep_splitOnChar (sep : Char) (s : Str) :
    joinSep sep (splitOnChar sep s) = s := by
  induction s with
  | nil => rfl
  | cons ch rest ih =>
      simp only [splitOnChar]
      cases h : splitOnChar sep rest with
      | nil => exact absurd h (splitOnChar_ne_nil sep rest)
      | cons s ss =>
          rw [h] at ih
          by_cases hc : ch = sep
          · subst hc
            simpa [joinSep] using ih
          · simp only [if_neg hc]
            cases ss with
            | nil => simpa [joinSep] using congrArg (ch :: ·) ih
            | cons t ts => simpa [joinSep] using congrArg (ch :: ·) ih

theorem mem_joinSep_of_mem {c : Char} {p : Str} {l : List Str}
    (hp : p ∈ l) (hc : c ∈ p) : c ∈ joinSep sep l := by
  induction l with
  | nil => simp at hp
  | cons x ys ih =>
      cases ys with
      | nil =>
          simp only [List.mem_singleton] at hp
          subst hp
          simpa [joinSep] using hc
      | cons y ys' =>
          simp only [List.mem_cons] at hp
          rcases hp with rfl | hp
          · simp [joinSep, hc]
          · simp only [joinSep, List.mem_append, List.mem_cons]
            exact Or.inr (Or.inr (ih (by simpa using hp)))

theorem mem_of_mem_splitOnChar {c : Char} {p : Str} {s : Str}
    (hp : p ∈ splitOnChar sep s) (hc : c ∈ p) : c ∈ s := by
  have h := @mem_joinSep_of_mem sep c p (splitOnChar sep s) hp hc
  rwa [joinSep_splitOnChar] at h

theorem not_sep_of_mem_splitOnChar {p : Str} {s : Str}
    (hp : p ∈ splitOnChar sep s) : sep ∉ p := by
  induction s generalizing p with
  | nil =>
      simp only [splitOnChar, List.mem_singleton] at hp
      subst hp; simp
  | cons ch rest ih =>
      obtain ⟨s', ss, h⟩ := splitOnChar_cons_shape sep rest
      rw [splitOnChar_cons_eq h] at hp
      by_cases hcsep : ch = sep
      · rw [if_pos hcsep] at hp
        simp only [List.mem_cons] at hp
        rcases hp with rfl | hp
        · simp
        · exact ih (by rw [h]; exact List.mem_cons.mpr hp)
      · rw [if_neg hcsep] at hp
        simp only [List.mem_cons] at hp
        rcases hp with rfl | hp
        · intro hmem
          simp only [List.mem_cons] at hmem
          rcases hmem with heq | hmem
          · exact hcsep heq.symm
          · exact ih (p := s') (by rw [h]; exact List.mem_cons_self s' ss) hmem
        · exact ih (by rw [h]; exact List.mem_cons_of_mem s' hp)

end PyStr

namespace PyNum
open PyStr

theorem digitVal_digitChar {d : Nat} (hd : d < 10) : digitVal (digitChar d) = some d := by
  interval_cases d <;> rfl

theorem natToStrAux_congr : ∀ f g n, n < f → n < g → natToStrAux f n = natToStrAux g n := by
  intro f
  induction f with
  | zero => intro g n hf; omega
  | succ f ih =>
      intro g n hf hg
      cases g with
      | zero => omega
      | succ g =>
          simp only [natToStrAux]
          by_cases h10 : n < 10
          · simp [h10]
          · have hdiv : n / 10 < n := Nat.div_lt_self (by omega) (by omega)
            rw [if_neg h10, if_neg h10, ih g (n / 10) (by omega) (by omega)]

theorem natToStrAux_ne_nil (f n : Nat) : natToStrAux (f + 1) n ≠ [] := by
  simp only [natToStrAux]
  by_cases h10 : n < 10 <;> simp [h10]

theorem natToStr_ne_nil (n : Nat) : natToStr n ≠ [] := natToStrAux_ne_nil n n

theorem digitVal_isSome_of_mem_natToStrAux :
    ∀ f n c, c ∈ natToStrAux f n → (digitVal c).isSome := by
  intro f
  induction f with
  | zero => intro n c hc; simp [natToStrAux] at hc
  | succ f ih =>
      intro n c hc
      simp only [natToStrAux] at hc
      by_cases h10 : n < 10
      · rw [if_pos h10] at hc
        simp only [List.mem_singleton] at hc
        subst hc
        rw [digitVal_digitChar h10]
        rfl
      · rw [if_neg h10] at hc
        rcases List.mem_append.mp hc with h | h
        · exact ih (n / 10) c h
        · simp only [List.mem_singleton] at h
          subst h
          rw [digitVal_digitChar (Nat.mod_lt n (by omega))]
          rfl

theorem digitVal_isSome_of_mem_natToStr {n : Nat} {c : Char} (hc : c ∈ natToStr n) :
    (digitVal c).isSome :=
  digitVal_isSome_of_mem_natToStrAux (n + 1) n c hc

theorem mem_intToStr_digit_or_minus {i : Int} {c : Char} (hc : c ∈ intToStr i) :
    (digitVal c).isSome ∨ c = '-' := by
  unfold intToStr at hc
  by_cases hneg : i < 0
  · rw [if_pos hneg] at hc
    rcases List.mem_cons.mp hc with rfl | hc
    · exact Or.inr rfl
    · exact Or.inl (digitVal_isSome_of_mem_natToStr hc)
  · rw [if_neg hneg] at hc
    exact Or.inl (digitVal_isSome_of_mem_natToStr hc)

theorem digitsToNat_append (acc : Nat) (a b : Str) :
    digitsToNat acc (a ++ b) =
      match digitsToNat acc a with
      | none => none
      | some m => digitsToNat m b := by
  induction a generalizing acc with
  | nil => simp [digitsToNat]
  | cons c rest ih =>
      simp only [List.cons_append, digitsToNat]
      cases digitVal c with
      | none => rfl
      | some d => exact ih (acc * 10 + d)

theorem digitsToNat_natToStrAux :
    ∀ f n acc, n < f →
      digitsToNat acc (natToStrAux f n) = some (acc * 10 ^ (natToStrAux f n).length + n) := by
  intro f
  induction f with
  | zero => intro n acc h; omega
  | succ f ih =>
      intro n acc h
      simp only [natToStrAux]
      by_cases h10 : n < 10
      · rw [if_pos h10]
        simp [digitsToNat, digitVal_digitChar h10]
      · rw [if_neg h10]
        have hdiv : n / 10 < n := Nat.div_lt_self (by omega) (by omega)
        have hlt : n / 10 < f := by omega
        rw [digitsToNat_append, ih (n / 10) acc hlt]
        have hmod : n % 10 < 10 := Nat.mod_lt n (by omega)
        simp only [digitsToNat, digitVal_digitChar hmod]
        have hdm : n / 10 * 10 + n % 10 = n := by omega
        rw [List.length_append, List.length_singleton]
        congr 1
        ring_nf
        omega

theorem digitsToNat_natToStr (n : Nat) : digitsToNat 0 (natToStr n) = some n := by
  have h := digitsToNat_natToStrAux (n + 1) n 0 (by omega)
  simpa using h

theorem parseDigits_natToStr (n : Nat) : parseDigits (natToStr n) = some n := by
  cases h : natToStr n with
  | nil => exact absurd h (natToStr_ne_nil n)
  | cons c cs =>
      have := digitsToNat_natToStr n
      rw [h] at this
      simpa [parseDigits] using this

theorem str_to_int_intToStr (i : Int) : str_to_int (intToStr i) = some i := by
  by_cases hneg : i < 0
  · rw [intToStr, if_pos hneg]
    simp only [str_to_int, if_pos rfl, parseDigits_natToStr]
    show some (-(((-i).toNat : Int))) = some i
    have h1 : ((-i).toNat : Int) = -i := by omega
    rw [h1, neg_neg]
  · rw [intToStr, if_neg hneg]
    cases h : natToStr i.toNat with
    | nil => exact absurd h (natToStr_ne_nil i.toNat)
    | cons c cs =>
        have hdig : (digitVal c).isSome := by
          apply digitVal_isSome_of_mem_natToStr (n := i.toNat)
          rw [h]; exact List.mem_cons_self c cs
        have hcm : c ≠ '-' := by
          intro hc; rw [hc] at hdig; simp [digitVal] at hdig
        have hcp : c ≠ '+' := by
          intro hc; rw [hc] at hdig; simp [digitVal] at hdig
        have hp : parseDigits (c :: cs) = some i.toNat := by
          rw [← h, parseDigits_natToStr]
        have h1 : (i.toNat : Int) = i := by omega
        simp only [str_to_int, if_neg hcm, if_neg hcp, hp]
        show some ((i.toNat : Int)) = some i
        rw [h1]

end PyNum

namespace UrlLib
open PyStr

theorem filterMap_some_of_mem {α : Type} {f : α → Option α} :
    ∀ {l : List α}, (∀ x ∈ l, f x = some x) → l.filterMap f = l := by
  intro l
  induction l with
  | nil => intro _; rfl
  | cons x xs ih =>
      intro h
      rw [List.filterMap_cons, h x (by simp)]
      rw [ih fun a ha => h a (by simp [ha])]

theorem joinSep_ne_nil {sep : Char} {l : List Str} {p : Str}
    (hp : p ∈ l) (hne : p ≠ []) : joinSep sep l ≠ [] := by
  cases l with
  | nil => simp at hp
  | cons x ys =>
      cases ys with
      | nil =>
          simp only [List.mem_singleton] at hp
          subst hp
          simpa [joinSep] using hne
      | cons y ys' =>
          simp only [joinSep]
          rcases List.mem_cons.mp hp with rfl | hp
          · intro h
            rcases List.append_eq_nil.mp h with ⟨h1, _⟩
            exact hne h1
          · intro h
            rcases List.append_eq_nil.mp h with ⟨_, h2⟩
            simp at h2

theorem urlencode_eq_doseq (q : List (Str × Str)) :
    urlencode q = urlencode_doseq (qsSingles q) := by
  unfold urlencode urlencode_doseq qsSingles
  congr 1
  induction q with
  | nil => rfl
  | cons kv rest ih => simp [ih]

theorem parse_qsl_good (qs : Str) : ∀ kv ∈ parse_qsl qs, goodKey kv.1 ∧ goodVal kv.2 := by
  intro kv hkv
  unfold parse_qsl at hkv
  rcases List.mem_filterMap.mp hkv with ⟨nv, hnv, hf⟩
  have hnvAmp : '&' ∉ nv := not_sep_of_mem_splitOnChar hnv
  split at hf
  · exact absurd hf (by simp)
  · exact absurd hf (by simp)
  · rename_i k rest x hsplit
    by_cases hv : joinSep '=' rest = []
    · rw [if_pos hv] at hf; exact absurd hf (by simp)
    · rw [if_neg hv] at hf
      simp only [Option.some.injEq] at hf
      subst hf
      have hkmem : k ∈ splitOnChar '=' nv := by rw [hsplit]; simp
      have hkAmp : '&' ∉ k := fun hc => hnvAmp (mem_of_mem_splitOnChar hkmem hc)
      have hkEq : '=' ∉ k := not_sep_of_mem_splitOnChar hkmem
      refine ⟨⟨hkAmp, hkEq⟩, hv, fun hc => ?_⟩
      rcases mem_joinSep hc with h | ⟨piece, hpiece, hcp⟩
      · exact absurd h (by decide)
      · have hpmem : piece ∈ splitOnChar '=' nv := by
          rw [hsplit]; exact List.mem_cons_of_mem k hpiece
        exact hnvAmp (mem_of_mem_splitOnChar hpmem hcp)

theorem addQsPair_keys (d : List (Str × List Str)) (k : Str) (v : Str) :
    (addQsPair d k v).map Prod.fst =
      if k ∈ d.map Prod.fst then d.map Prod.fst else d.map Prod.fst ++ [k] := by
  induction d with
  | nil => simp [addQsPair]
  | cons kv rest ih =>
      obtain ⟨k', vs⟩ := kv
      by_cases hk : k' = k
      · subst hk
        simp [addQsPair]
      · simp only [addQsPair, if_neg hk, List.map_cons, ih]
        by_cases hmem : k ∈ rest.map Prod.fst
        · rw [if_pos hmem, if_pos (by simp [List.mem_cons, hmem])]
        · rw [if_neg hmem, if_neg (by
            simp only [List.mem_cons]
            rintro (h | h)
            · exact hk h.symm
            · exact hmem h), List.cons_append]

theorem addQsPair_good {d : List (Str × List Str)} {k v : Str}
    (hd : ∀ kv ∈ d, goodKey kv.1 ∧ kv.2 ≠ [] ∧ ∀ x ∈ kv.2, goodVal x)
    (hk : goodKey k) (hv : goodVal v) :
    ∀ kv ∈ addQsPair d k v, goodKey kv.1 ∧ kv.2 ≠ [] ∧ ∀ x ∈ kv.2, goodVal x := by
  induction d with
  | nil =>
      intro kv hkv
      simp only [addQsPair, List.mem_singleton] at hkv
      subst hkv
      exact ⟨hk, by simp, by simpa using hv⟩
  | cons kv0 rest ih =>
      obtain ⟨k', vs⟩ := kv0
      intro kv hkv
      simp only [addQsPair] at hkv
      by_cases hkk : k' = k
      · rw [if_pos hkk] at hkv
        rcases List.mem_cons.mp hkv with rfl | hkv
        · obtain ⟨hg, hne, hvals⟩ := hd (k', vs) (by simp)
          refine ⟨hg, by simp, fun x hx => ?_⟩
          rcases List.mem_append.mp hx with hx | hx
          · exact hvals x hx
          · simp only [List.mem_singleton] at hx; subst hx; exact hv
        · exact hd kv (List.mem_cons_of_mem _ hkv)
      · rw [if_neg hkk] at hkv
        rcases List.mem_cons.mp hkv with h | hkv
        · rw [h]
          exact hd (k', vs) (by simp)
        · exact ih (fun x hx => hd x (List.mem_cons_of_mem _ hx)) kv hkv

theorem addQsPair_QsNF {d : List (Str × List Str)} {k v : Str}
    (hd : QsNF d) (hk : goodKey k) (hv : goodVal v) : QsNF (addQsPair d k v) := by
  obtain ⟨hnodup, hgood⟩ := hd
  refine ⟨?_, addQsPair_good hgood hk hv⟩
  rw [addQsPair_keys]
  by_cases hmem : k ∈ d.map Prod.fst
  · rwa [if_pos hmem]
  · rw [if_neg hmem, List.nodup_append]
    refine ⟨hnodup, List.nodup_singleton k, fun a ha hb => ?_⟩
    simp only [List.mem_singleton] at hb
    subst hb
    exact hmem ha

theorem foldl_addQsPair_QsNF :
    ∀ (l : List (Str × Str)) (d : List (Str × List Str)), QsNF d →
      (∀ kv ∈ l, goodKey kv.1 ∧ goodVal kv.2) →
      QsNF (l.foldl (fun d kv => addQsPair d kv.1 kv.2) d) := by
  intro l
  induction l with
  | nil => intro d hd _; exact hd
  | cons kv rest ih =>
      intro d hd hl
      simp only [List.foldl_cons]
      exact ih _ (addQsPair_QsNF hd (hl kv (by simp)).1 (hl kv (by simp)).2)
        (fun x hx => hl x (by simp [hx]))

theorem parse_qs_QsNF (qs : Str) : QsNF (parse_qs qs) :=
  foldl_addQsPair_QsNF (parse_qsl qs) [] ⟨by simp, by simp⟩ (parse_qsl_good qs)

theorem encode_parts_eq_map_qsFlat (d : List (Str × List Str)) :
    (d.map (fun kv => kv.2.map fun v => kv.1 ++ '=' :: v)).flatten =
      (qsFlat d).map (fun kv => kv.1 ++ '=' :: kv.2) := by
  unfold qsFlat
  induction d with
  | nil => rfl
  | cons kv rest ih =>
      simp only [List.map_cons, List.flatten_cons, List.map_append, ih, List.map_map]
      rfl

theorem qsFlat_good {d : List (Str × List Str)}
    (h : ∀ kv ∈ d, goodKey kv.1 ∧ kv.2 ≠ [] ∧ ∀ v ∈ kv.2, goodVal v) :
    ∀ kv ∈ qsFlat d, goodKey kv.1 ∧ goodVal kv.2 := by
  intro kv hkv
  unfold qsFlat at hkv
  rcases List.mem_flatten.mp hkv with ⟨block, hblock, hmem⟩
  rcases List.mem_map.mp hblock with ⟨entry, hentry, rfl⟩
  rcases List.mem_map.mp hmem with ⟨v, hv, rfl⟩
  obtain ⟨hk, _, hvals⟩ := h entry hentry
  exact ⟨hk, hvals v hv⟩

theorem qsFlat_ne_nil {d : List (Str × List Str)} (hd : d ≠ [])
    (h : ∀ kv ∈ d, kv.2 ≠ []) : qsFlat d ≠ [] := by
  cases d with
  | nil => exact absurd rfl hd
  | cons kv rest =>
      have hvs : kv.2 ≠ [] := h kv (by simp)
      unfold qsFlat
      simp only [List.map_cons, List.flatten_cons]
      intro hcontra
      rcases List.append_eq_nil.mp hcontra with ⟨h1, _⟩
      exact hvs (List.map_eq_nil_iff.mp h1)

theorem parse_qsl_urlencode_doseq {d : List (Str × List Str)}
    (h : ∀ kv ∈ d, goodKey kv.1 ∧ kv.2 ≠ [] ∧ ∀ v ∈ kv.2, goodVal v) :
    parse_qsl (urlencode_doseq d) = qsFlat d := by
  by_cases hd : d = []
  · subst hd; rfl
  · have hgood := qsFlat_good h
    unfold parse_qsl urlencode_doseq
    rw [encode_parts_eq_map_qsFlat]
    rw [splitOnChar_joinSep '&' _ (by
          intro hcontra
          exact qsFlat_ne_nil hd (fun kv hkv => (h kv hkv).2.1)
            (List.map_eq_nil_iff.mp hcontra))
        (by
          intro part hpart
          rcases List.mem_map.mp hpart with ⟨kv, hkv, rfl⟩
          obtain ⟨⟨hkAmp, _⟩, hvNe, hvAmp⟩ := hgood kv hkv
          intro hcontra
          rcases List.mem_append.mp hcontra with hc | hc
          · exact hkAmp hc
          · rcases List.mem_cons.mp hc with hc | hc
            · exact absurd hc (by decide)
            · exact hvAmp hc)]
    rw [List.filterMap_map]
    apply filterMap_some_of_mem
    intro kv hkv
    obtain ⟨⟨_, hkEq⟩, ⟨hvNe, _⟩⟩ := hgood kv hkv
    obtain ⟨k, v⟩ := kv
    simp only [Function.comp_apply]
    obtain ⟨s, ss, hshape⟩ := splitOnChar_cons_shape '=' v
    rw [splitOnChar_append_sep _ _ hkEq, hshape]
    show (if joinSep '=' (s :: ss) = [] then none
          else some (k, joinSep '=' (s :: ss))) = some (k, v)
    rw [← hshape, joinSep_splitOnChar]
    rw [if_neg hvNe]

theorem addQsPair_notmem {d : List (Str × List Str)} {k v : Str}
    (h : k ∉ d.map Prod.fst) : addQsPair d k v = d ++ [(k, [v])] := by
  induction d with
  | nil => rfl
  | cons kv rest ih =>
      obtain ⟨k', vs⟩ := kv
      have hk : k' ≠ k := fun hc => h (by simp [hc])
      simp only [addQsPair, if_neg hk, List.cons_append]
      rw [ih (fun hc => h (by simp [hc]))]

theorem addQsPair_append_last {D : List (Str × List Str)} {k : Str} {us : List Str}
    {v : Str} (h : k ∉ D.map Prod.fst) :
    addQsPair (D ++ [(k, us)]) k v = D ++ [(k, us ++ [v])] := by
  induction D with
  | nil => simp [addQsPair]
  | cons kv rest ih =>
      obtain ⟨k', vs⟩ := kv
      have hk : k' ≠ k := fun hc => h (by simp [hc])
      simp only [List.cons_append, addQsPair, if_neg hk, List.append_eq]
      rw [ih (fun hc => h (by simp [hc]))]

theorem foldl_addQsPair_block {D : List (Str × List Str)} {k : Str}
    (h : k ∉ D.map Prod.fst) :
    ∀ (vs : List Str) (us : List Str),
      ((vs.map fun v => (k, v)).foldl (fun d kv => addQsPair d kv.1 kv.2)
        (D ++ [(k, us)])) = D ++ [(k, us ++ vs)] := by
  intro vs
  induction vs with
  | nil => intro us; simp
  | cons v vs' ih =>
      intro us
      simp only [List.map_cons, List.foldl_cons]
      rw [addQsPair_append_last h, ih (us ++ [v])]
      simp

theorem foldl_addQsPair_qsFlat :
    ∀ (d : List (Str × List Str)), (d.map Prod.fst).Nodup →
      (∀ kv ∈ d, kv.2 ≠ []) →
      ∀ D : List (Str × List Str), (∀ k ∈ d.map Prod.fst, k ∉ D.map Prod.fst) →
        (qsFlat d).foldl (fun acc kv => addQsPair acc kv.1 kv.2) D = D ++ d := by
  intro d
  induction d with
  | nil => intro _ _ D _; simp [qsFlat]
  | cons kv rest ih =>
      obtain ⟨k, vs⟩ := kv
      intro hnd hne D hdisj
      have hkD : k ∉ D.map Prod.fst := hdisj k (by simp)
      have hflat : qsFlat ((k, vs) :: rest) = (vs.map fun v => (k, v)) ++ qsFlat rest := by
        unfold qsFlat
        simp
      rw [hflat, List.foldl_append]
      cases vs with
      | nil => exact absurd rfl (hne (k, []) (by simp))
      | cons v vs' =>
          simp only [List.map_cons, List.foldl_cons]
          rw [addQsPair_notmem hkD, foldl_addQsPair_block hkD vs' [v]]
          have hpair : (k ∉ rest.map Prod.fst) ∧ (rest.map Prod.fst).Nodup := by
            rw [List.map_cons] at hnd
            exact List.nodup_cons.mp hnd
          have hrest := ih hpair.2
            (fun x hx => hne x (List.mem_cons_of_mem _ hx))
            (D ++ [(k, [v] ++ vs')])
            (by
              intro k' hk'
              have hk'd : k' ∉ D.map Prod.fst := hdisj k' (by simp [hk'])
              have hk'k : k' ≠ k := fun hc => hpair.1 (hc ▸ hk')
              simp only [List.map_append, List.map_cons, List.map_nil]
              intro hc
              rcases List.mem_append.mp hc with hc | hc
              · exact hk'd hc
              · simp only [List.mem_singleton] at hc
                exact hk'k hc)
          rw [hrest, List.append_assoc]
          rfl

theorem parse_qs_urlencode_doseq {d : List (Str × List Str)} (h : QsNF d) :
    parse_qs (urlencode_doseq d) = d := by
  unfold parse_qs
  rw [parse_qsl_urlencode_doseq h.2]
  have := foldl_addQsPair_qsFlat d h.1 (fun kv hkv => (h.2 kv hkv).2.1) []
    (by simp)
  simpa using this

theorem assocGet_mem {α : Type} {d : List (Str × α)} {k : Str} {v : α}
    (h : assocGet d k = some v) : (k, v) ∈ d := by
  induction d with
  | nil => simp [assocGet] at h
  | cons kv rest ih =>
      obtain ⟨k', v'⟩ := kv
      unfold assocGet at h
      by_cases hk : k' = k
      · rw [if_pos hk] at h
        simp only [Option.some.injEq] at h
        subst hk
        subst h
        simp
      · rw [if_neg hk] at h
        exact List.mem_cons_of_mem _ (ih h)

theorem qsSet_keys (d : List (Str × List Str)) (k : Str) (newVs : List Str) :
    (qsSet d k newVs).map Prod.fst = d.map Prod.fst := by
  induction d with
  | nil => rfl
  | cons kv rest ih =>
      obtain ⟨k', vs⟩ := kv
      unfold qsSet
      by_cases hk : k' = k
      · rw [if_pos hk]; simp
      · rw [if_neg hk]; simp [ih]

theorem assocGet_qsSet_self {d : List (Str × List Str)} {k : Str} {newVs : List Str}
    (h : (assocGet d k).isSome) : assocGet (qsSet d k newVs) k = some newVs := by
  induction d with
  | nil => simp [assocGet] at h
  | cons kv rest ih =>
      obtain ⟨k', vs⟩ := kv
      unfold qsSet
      by_cases hk : k' = k
      · rw [if_pos hk]
        unfold assocGet
        rw [if_pos hk]
      · rw [if_neg hk]
        unfold assocGet
        rw [if_neg hk]
        apply ih
        unfold assocGet at h
        rwa [if_neg hk] at h

theorem assocGet_qsSet_other {d : List (Str × List Str)} {k key : Str}
    {newVs : List Str} (h : key ≠ k) :
    assocGet (qsSet d k newVs) key = assocGet d key := by
  induction d with
  | nil => rfl
  | cons kv rest ih =>
      obtain ⟨k', vs⟩ := kv
      unfold qsSet
      by_cases hk : k' = k
      · rw [if_pos hk]
        unfold assocGet
        rw [if_neg (by rw [hk]; exact fun hc => h hc.symm),
            if_neg (by rw [hk]; exact fun hc => h hc.symm)]
      · rw [if_neg hk]
        unfold assocGet
        by_cases hkey : k' = key
        · rw [if_pos hkey, if_pos hkey]
        · rw [if_neg hkey, if_neg hkey]
          exact ih

theorem qsSet_good {d : List (Str × List Str)} {k : Str} {newVs : List Str}
    (hd : ∀ kv ∈ d, goodKey kv.1 ∧ kv.2 ≠ [] ∧ ∀ v ∈ kv.2, goodVal v)
    (h1 : newVs ≠ []) (h2 : ∀ v ∈ newVs, goodVal v) :
    ∀ kv ∈ qsSet d k newVs, goodKey kv.1 ∧ kv.2 ≠ [] ∧ ∀ v ∈ kv.2, goodVal v := by
  induction d with
  | nil => simp [qsSet]
  | cons kv0 rest ih =>
      obtain ⟨k', vs⟩ := kv0
      intro kv hkv
      unfold qsSet at hkv
      by_cases hk : k' = k
      · rw [if_pos hk] at hkv
        rcases List.mem_cons.mp hkv with h | hkv
        · rw [h]
          exact ⟨(hd (k', vs) (by simp)).1, h1, h2⟩
        · exact hd kv (List.mem_cons_of_mem _ hkv)
      · rw [if_neg hk] at hkv
        rcases List.mem_cons.mp hkv with h | hkv
        · rw [h]
          exact hd (k', vs) (by simp)
        · exact ih (fun x hx => hd x (List.mem_cons_of_mem _ hx)) kv hkv

theorem QsNF_qsSet {d : List (Str × List Str)} {k : Str} {newVs : List Str}
    (hd : QsNF d) (h1 : newVs ≠ []) (h2 : ∀ v ∈ newVs, goodVal v) :
    QsNF (qsSet d k newVs) :=
  ⟨by rw [qsSet_keys]; exact hd.1, qsSet_good hd.2 h1 h2⟩

theorem urlencode_doseq_ne_nil {d : List (Str × List Str)} (hd : d ≠ [])
    (hne : ∀ kv ∈ d, kv.2 ≠ []) : urlencode_doseq d ≠ [] := by
  unfold urlencode_doseq
  rw [encode_parts_eq_map_qsFlat]
  have hq := qsFlat_ne_nil hd hne
  cases hflat : qsFlat d with
  | nil => exact absurd hflat hq
  | cons kv rest =>
      apply joinSep_ne_nil (p := kv.1 ++ '=' :: kv.2)
      · simp
      · simp

theorem urlparse_cons2 {url p s : Str} {ss : List Str}
    (h : splitOnChar '?' url = p :: s :: ss) :
    urlparse url = (p, joinSep '?' (s :: ss)) := by
  unfold urlparse
  rw [h]

theorem urlparse_single {url p : Str} (h : splitOnChar '?' url = [p]) :
    urlparse url = (p, []) := by
  unfold urlparse
  rw [h]

theorem urlparse_fst_no_qmark (url : Str) : '?' ∉ (urlparse url).1 := by
  obtain ⟨s, ss, h⟩ := splitOnChar_cons_shape '?' url
  have hmem : s ∈ splitOnChar '?' url := by rw [h]; simp
  cases ss with
  | nil =>
      rw [urlparse_single h]
      exact not_sep_of_mem_splitOnChar hmem
  | cons t ts =>
      rw [urlparse_cons2 h]
      exact not_sep_of_mem_splitOnChar hmem

theorem urlparse_urlunparse {pre q : Str} (hpre : '?' ∉ pre) (hq : q ≠ []) :
    urlparse (urlunparse pre q) = (pre, q) := by
  unfold urlunparse
  rw [if_neg hq]
  obtain ⟨s, ss, hshape⟩ := splitOnChar_cons_shape '?' q
  have hsplit : splitOnChar '?' (pre ++ '?' :: q) = pre :: s :: ss := by
    rw [splitOnChar_append_sep _ _ hpre, hshape]
  rw [urlparse_cons2 hsplit, ← hshape, joinSep_splitOnChar]

theorem not_mem_keys_head {α : Type} {k k' : Str} {v' : α} {rest : List (Str × α)}
    (h : k ∉ ((k', v') :: rest).map Prod.fst) :
    k' ≠ k ∧ k ∉ rest.map Prod.fst := by
  rw [List.map_cons] at h
  constructor
  · intro hc
    exact h (by rw [hc]; exact List.mem_cons_self _ _)
  · intro hc
    exact h (List.mem_cons_of_mem _ hc)

theorem assocGet_append_last {α : Type} {d : List (Str × α)} {k : Str} {v : α}
    (h : k ∉ d.map Prod.fst) : assocGet (d ++ [(k, v)]) k = some v := by
  induction d with
  | nil =>
      rw [List.nil_append]
      unfold assocGet
      rw [if_pos rfl]
  | cons kv rest ih =>
      obtain ⟨k', v'⟩ := kv
      obtain ⟨hk, hrest⟩ := not_mem_keys_head h
      rw [List.cons_append]
      unfold assocGet
      rw [if_neg hk]
      exact ih hrest

theorem qsSet_append_last {d : List (Str × List Str)} {k : Str} {vs newVs : List Str}
    (h : k ∉ d.map Prod.fst) : qsSet (d ++ [(k, vs)]) k newVs = d ++ [(k, newVs)] := by
  induction d with
  | nil =>
      rw [List.nil_append]
      unfold qsSet
      rw [if_pos rfl]
      rfl
  | cons kv rest ih =>
      obtain ⟨k', v'⟩ := kv
      obtain ⟨hk, hrest⟩ := not_mem_keys_head h
      rw [List.cons_append]
      unfold qsSet
      rw [if_neg hk, ih hrest]
      rfl

theorem qsSingles_keys (q : List (Str × Str)) :
    (qsSingles q).map Prod.fst = q.map Prod.fst := by
  unfold qsSingles
  rw [List.map_map]
  rfl

theorem QsNF_qsSingles {q : List (Str × Str)} (hnd : (q.map Prod.fst).Nodup)
    (hg : ∀ kv ∈ q, goodKey kv.1 ∧ goodVal kv.2) : QsNF (qsSingles q) := by
  constructor
  · rw [qsSingles_keys]; exact hnd
  · intro kv hkv
    rcases List.mem_map.mp hkv with ⟨kv0, hkv0, rfl⟩
    obtain ⟨hk, hv⟩ := hg kv0 hkv0
    refine ⟨hk, by simp, fun x hx => ?_⟩
    simp only [List.mem_singleton] at hx
    subst hx
    exact hv

theorem urlencode_ne_nil {q : List (Str × Str)} (hq : q ≠ []) : urlencode q ≠ [] := by
  cases q with
  | nil => exact absurd rfl hq
  | cons kv rest =>
      unfold urlencode
      apply joinSep_ne_nil (p := kv.1 ++ '=' :: kv.2)
      · simp
      · simp

end UrlLib

namespace NflData
open PyStr PyNum

theorem intToStr_ne_nil (i : Int) : intToStr i ≠ [] := by
  unfold intToStr
  by_cases h : i < 0
  · rw [if_pos h]; simp
  · rw [if_neg h]; exact natToStr_ne_nil _

theorem goodVal_intToStr (i : Int) : UrlLib.goodVal (intToStr i) := by
  refine ⟨intToStr_ne_nil i, fun hmem => ?_⟩
  rcases mem_intToStr_digit_or_minus hmem with h | h
  · exact absurd h (by decide)
  · exact absurd h (by decide)

theorem offsetOf_some_elim {url : Str} {n : Int} (h : offsetOf url = some n) :
    ∃ v rest, assocGet (UrlLib.parse_qs (UrlLib.urlparse url).2) offsetKey =
        some (v :: rest) ∧ str_to_int v = some n := by
  cases hget : assocGet (UrlLib.parse_qs (UrlLib.urlparse url).2) offsetKey with
  | none =>
      have h2 := h
      unfold offsetOf at h2
      rw [hget] at h2
      exact absurd (show (none : Option Int) = some n from h2) (by simp)
  | some vs =>
      cases vs with
      | nil =>
          have h2 := h
          unfold offsetOf at h2
          rw [hget] at h2
          exact absurd (show (none : Option Int) = some n from h2) (by simp)
      | cons v rest =>
          refine ⟨v, rest, rfl, ?_⟩
          have h2 := h
          unfold offsetOf at h2
          rw [hget] at h2
          exact h2

/-- Success path of the offset advance: on any URL whose first `offset` query
value parses as `n`, `increase_url_offset` succeeds, the offset of the result
is `n + increase`, and the URL prefix and every other query parameter are
unchanged. -/
theorem increase_url_offset_ok {url : Str} {n : Int} (inc : Int)
    (h : offsetOf url = some n) :
    ∃ u', increase_url_offset url inc = Except.ok u' ∧
      offsetOf u' = some (n + inc) ∧
      (UrlLib.urlparse u').1 = (UrlLib.urlparse url).1 ∧
      ∀ key, key ≠ offsetKey →
        assocGet (UrlLib.parse_qs (UrlLib.urlparse u').2) key =
          assocGet (UrlLib.parse_qs (UrlLib.urlparse url).2) key := by
  obtain ⟨v, rest, hget, hv⟩ := offsetOf_some_elim h
  have hNF := UrlLib.parse_qs_QsNF (UrlLib.urlparse url).2
  have hgoods := hNF.2 _ (UrlLib.assocGet_mem hget)
  have hnewgood : ∀ x ∈ intToStr (n + inc) :: rest, UrlLib.goodVal x := by
    intro x hx
    rcases List.mem_cons.mp hx with rfl | hx
    · exact goodVal_intToStr _
    · exact hgoods.2.2 x (List.mem_cons_of_mem _ hx)
  have hNF' : UrlLib.QsNF (UrlLib.qsSet (UrlLib.parse_qs (UrlLib.urlparse url).2)
      offsetKey (intToStr (n + inc) :: rest)) :=
    UrlLib.QsNF_qsSet hNF (by simp) hnewgood
  have hargsne : UrlLib.qsSet (UrlLib.parse_qs (UrlLib.urlparse url).2)
      offsetKey (intToStr (n + inc) :: rest) ≠ [] := by
    intro hc
    have hkeys := UrlLib.qsSet_keys (UrlLib.parse_qs (UrlLib.urlparse url).2)
      offsetKey (intToStr (n + inc) :: rest)
    rw [hc] at hkeys
    have : UrlLib.parse_qs (UrlLib.urlparse url).2 = [] :=
      List.map_eq_nil_iff.mp hkeys.symm
    rw [this] at hget
    simp [assocGet] at hget
  have hqne : UrlLib.urlencode_doseq (UrlLib.qsSet
      (UrlLib.parse_qs (UrlLib.urlparse url).2) offsetKey
      (intToStr (n + inc) :: rest)) ≠ [] :=
    UrlLib.urlencode_doseq_ne_nil hargsne (fun kv hkv => (hNF'.2 kv hkv).2.1)
  have hcomp : increase_url_offset url inc = Except.ok
      (UrlLib.urlunparse (UrlLib.urlparse url).1
        (UrlLib.urlencode_doseq (UrlLib.qsSet
          (UrlLib.parse_qs (UrlLib.urlparse url).2) offsetKey
          (intToStr (n + inc) :: rest)))) := by
    simp only [increase_url_offset, hget, hv]
  have hup : UrlLib.urlparse (UrlLib.urlunparse (UrlLib.urlparse url).1
      (UrlLib.urlencode_doseq (UrlLib.qsSet
        (UrlLib.parse_qs (UrlLib.urlparse url).2) offsetKey
        (intToStr (n + inc) :: rest)))) =
      ((UrlLib.urlparse url).1,
        UrlLib.urlencode_doseq (UrlLib.qsSet
          (UrlLib.parse_qs (UrlLib.urlparse url).2) offsetKey
          (intToStr (n + inc) :: rest))) :=
    UrlLib.urlparse_urlunparse (UrlLib.urlparse_fst_no_qmark url) hqne
  have hroundtrip := UrlLib.parse_qs_urlencode_doseq hNF'
  have hgetnew : assocGet (UrlLib.qsSet (UrlLib.parse_qs (UrlLib.urlparse url).2)
      offsetKey (intToStr (n + inc) :: rest)) offsetKey =
      some (intToStr (n + inc) :: rest) :=
    UrlLib.assocGet_qsSet_self (by rw [hget]; rfl)
  refine ⟨_, hcomp, ?_, ?_, ?_⟩
  · unfold offsetOf
    rw [hup]
    simp only [hroundtrip, hgetnew]
    exact str_to_int_intToStr (n + inc)
  · rw [hup]
  · intro key hkey
    rw [hup]
    simp only [hroundtrip]
    exact UrlLib.assocGet_qsSet_other hkey

theorem pfrQuery_split (year week : Int) (position : Position) (offset : Int) :
    pfrQuery year week position offset =
      pfrInit year week position ++ [(offsetKey, intToStr offset)] := rfl

theorem pfrQuery_keys (year week : Int) (position : Position) (offset : Int) :
    (pfrQuery year week position offset).map Prod.fst = pfrKeys := rfl

theorem pfrInit_keys (year week : Int) (position : Position) :
    (pfrInit year week position).map Prod.fst = pfrKeys.dropLast := rfl

theorem pfrInit_keys_no_offset (year week : Int) (position : Position) :
    offsetKey ∉ (pfrInit year week position).map Prod.fst := by
  rw [pfrInit_keys]
  decide

theorem pfrQuery_keys_nodup (year week : Int) (position : Position) (offset : Int) :
    ((pfrQuery year week position offset).map Prod.fst).Nodup := by
  rw [pfrQuery_keys]
  decide

theorem goodVal_cstat (p : Position) : UrlLib.goodVal p.val.cstat := by
  cases p <;> exact ⟨by decide, by decide⟩

theorem goodVal_order (p : Position) : UrlLib.goodVal p.val.order_by := by
  cases p <;> exact ⟨by decide, by decide⟩

theorem pfrQuery_vals (year week : Int) (p : Position) (offset : Int) :
    (pfrQuery year week p offset).map Prod.snd = pfrVals year week p offset := rfl

theorem pfrQuery_entries_good (year week : Int) (p : Position) (offset : Int) :
    ∀ kv ∈ pfrQuery year week p offset, UrlLib.goodKey kv.1 ∧ UrlLib.goodVal kv.2 := by
  intro kv hkv
  constructor
  · have hkeysGood : ∀ k ∈ pfrKeys, UrlLib.goodKey k := by decide
    apply hkeysGood
    rw [← pfrQuery_keys year week p offset]
    exact List.mem_map_of_mem Prod.fst hkv
  · have hval : kv.2 ∈ pfrVals year week p offset := by
      rw [← pfrQuery_vals year week p offset]
      exact List.mem_map_of_mem Prod.snd hkv
    revert hval
    generalize kv.2 = v
    intro hval
    unfold pfrVals at hval
    fin_cases hval
    all_goals first
      | decide
      | exact goodVal_intToStr _
      | exact goodVal_cstat p
      | exact goodVal_order p

theorem pfrQuery_QsNF (y w : Int) (p : Position) (o : Int) :
    UrlLib.QsNF (UrlLib.qsSingles (pfrQuery y w p o)) :=
  UrlLib.QsNF_qsSingles (pfrQuery_keys_nodup y w p o) (pfrQuery_entries_good y w p o)

theorem urlparse_build (y w : Int) (p : Position) (o : Int) :
    UrlLib.urlparse (build_pfr_url y w p o) =
      (pfrBase ++ ['/'], UrlLib.urlencode (pfrQuery y w p o)) := by
  have hb : build_pfr_url y w p o =
      (pfrBase ++ ['/']) ++ '?' :: UrlLib.urlencode (pfrQuery y w p o) := by
    unfold build_pfr_url
    rw [List.append_assoc]
    rfl
  rw [hb]
  have hpre : '?' ∉ pfrBase ++ ['/'] := by decide
  obtain ⟨s, ss, hshape⟩ :=
    splitOnChar_cons_shape '?' (UrlLib.urlencode (pfrQuery y w p o))
  have hsplit : splitOnChar '?'
      ((pfrBase ++ ['/']) ++ '?' :: UrlLib.urlencode (pfrQuery y w p o)) =
      (pfrBase ++ ['/']) :: s :: ss := by
    rw [splitOnChar_append_sep _ _ hpre, hshape]
  rw [UrlLib.urlparse_cons2 hsplit, ← hshape, joinSep_splitOnChar]

theorem parse_build_query (y w : Int) (p : Position) (o : Int) :
    UrlLib.parse_qs (UrlLib.urlencode (pfrQuery y w p o)) =
      UrlLib.qsSingles (pfrQuery y w p o) := by
  rw [UrlLib.urlencode_eq_doseq]
  exact UrlLib.parse_qs_urlencode_doseq (pfrQuery_QsNF y w p o)

theorem qsSingles_build_split (y w : Int) (p : Position) (o : Int) :
    UrlLib.qsSingles (pfrQuery y w p o) =
      UrlLib.qsSingles (pfrInit y w p) ++ [(offsetKey, [intToStr o])] := by
  rw [pfrQuery_split]
  unfold UrlLib.qsSingles
  rw [List.map_append]
  rfl

theorem assocGet_build (y w : Int) (p : Position) (o : Int) :
    assocGet (UrlLib.qsSingles (pfrQuery y w p o)) offsetKey = some [intToStr o] := by
  rw [qsSingles_build_split]
  exact UrlLib.assocGet_append_last
    (by rw [UrlLib.qsSingles_keys]; exact pfrInit_keys_no_offset y w p)

/-- Every URL produced by `build_pfr_url` carries a parseable `offset` query
parameter whose value is the requested offset. -/
theorem offsetOf_build (y w : Int) (p : Position) (o : Int) :
    offsetOf (build_pfr_url y w p o) = some o := by
  unfold offsetOf
  rw [urlparse_build]
  simp only [parse_build_query, assocGet_build]
  exact str_to_int_intToStr o

/-- Advancing a `build_pfr_url` URL by the default increment yields exactly the
URL `build_pfr_url` produces for an offset 100 larger. -/
theorem increase_build (y w : Int) (p : Position) (o : Int) :
    increase_url_offset (build_pfr_url y w p o) 100 =
      Except.ok (build_pfr_url y w p (o + 100)) := by
  have hset : UrlLib.qsSet (UrlLib.qsSingles (pfrQuery y w p o)) offsetKey
      [intToStr (o + 100)] = UrlLib.qsSingles (pfrQuery y w p (o + 100)) := by
    rw [qsSingles_build_split,
        UrlLib.qsSet_append_last
          (by rw [UrlLib.qsSingles_keys]; exact pfrInit_keys_no_offset y w p),
        qsSingles_build_split]
  have hqne : UrlLib.urlencode (pfrQuery y w p (o + 100)) ≠ [] :=
    UrlLib.urlencode_ne_nil (by rw [pfrQuery_split]; simp)
  simp only [increase_url_offset, urlparse_build, parse_build_query, assocGet_build,
    str_to_int_intToStr, hset]
  rw [← UrlLib.urlencode_eq_doseq]
  unfold UrlLib.urlunparse
  rw [if_neg hqne]
  unfold build_pfr_url
  rw [List.append_assoc]
  rfl

/-- Failure path of the offset advance: on any URL without a parseable first
`offset` query value, `increase_url_offset` raises. -/
theorem increase_url_offset_err {url : Str} (inc : Int) (h : offsetOf url = none) :
    ∃ e, increase_url_offset url inc = Except.error e := by
  cases hget : assocGet (UrlLib.parse_qs (UrlLib.urlparse url).2) offsetKey with
  | none => exact ⟨.keyError, by simp only [increase_url_offset, hget]⟩
  | some vs =>
      cases vs with
      | nil => exact ⟨.keyError, by simp only [increase_url_offset, hget]⟩
      | cons v rest =>
          have h2 := h
          unfold offsetOf at h2
          rw [hget] at h2
          have hv : str_to_int v = none := h2
          exact ⟨.valueError, by simp only [increase_url_offset, hget, hv]⟩

/-- Iterating the default-increment advance on a built URL lands exactly on
the URL built at an offset 100·k larger, and never fails. -/
theorem advanceN_build (y w : Int) (p : Position) :
    ∀ (k : Nat) (o : Int), advanceN k (build_pfr_url y w p o) =
      Except.ok (build_pfr_url y w p (o + 100 * k)) := by
  intro k
  induction k with
  | zero =>
      intro o
      unfold advanceN
      rw [show o + 100 * ((0 : Nat) : Int) = o by push_cast; ring]
  | succ k ih =>
      intro o
      unfold advanceN
      rw [increase_build y w p o]
      show advanceN k (build_pfr_url y w p (o + 100)) = _
      rw [ih (o + 100)]
      rw [show o + 100 + 100 * (k : Int) = o + 100 * ((k : Nat) + 1 : Nat) by push_cast; ring]

theorem unionCols_eq_left {c1 c2 : List Str} (h : ∀ x ∈ c2, x ∈ c1) :
    unionCols c1 c2 = c1 := by
  unfold unionCols
  rw [List.filter_eq_nil_iff.mpr (fun a ha => by simpa using h a ha), List.append_nil]

theorem concatTables_cols_same {t1 t2 : Table} {c0 : List Str}
    (h1 : t1.cols = c0) (h2 : t2.cols = c0) : (concatTables t1 t2).cols = c0 := by
  show unionCols t1.cols t2.cols = c0
  rw [h1, h2]
  exact unionCols_eq_left fun x hx => hx

theorem foldl_concat_rows :
    ∀ (ts : List Table) (df : Table),
      (ts.foldl concatTables df).rows = df.rows ++ (ts.map Table.rows).flatten := by
  intro ts
  induction ts with
  | nil => intro df; simp
  | cons t rest ih =>
      intro df
      simp only [List.foldl_cons, ih, List.map_cons, List.flatten_cons]
      show (df.rows ++ t.rows) ++ _ = _
      rw [List.append_assoc]

theorem foldl_concat_cols {c0 : List Str} :
    ∀ (ts : List Table) (df : Table), df.cols = c0 → (∀ t ∈ ts, t.cols = c0) →
      (ts.foldl concatTables df).cols = c0 := by
  intro ts
  induction ts with
  | nil => intro df h _; exact h
  | cons t rest ih =>
      intro df h hts
      simp only [List.foldl_cons]
      exact ih _ (concatTables_cols_same h (hts t (by simp)))
        fun x hx => hts x (List.mem_cons_of_mem _ hx)

/-- One induction step description of the whole pagination loop: starting at
page `k` of an `N`-page response with `m` pages remaining, the loop visits
exactly the next `m` URLs in chain order and appends their converted tables. -/
theorem walkLoop_spec (fetch : Str → RawPage) (us : Nat → Str) (N : Nat)
    (hchain : ∀ i, i + 1 < N → increase_url_offset (us i) 100 = Except.ok (us (i + 1)))
    (hnext : ∀ i, i < N → (fetch (us i)).hasNext = decide (i + 1 < N)) :
    ∀ (m k fuel : Nat), k + m + 1 = N → m ≤ fuel →
      ∀ (df : Table) (fetched : List Str),
        walkLoop fetch fuel (us k) (fetch (us k)).hasNext df fetched =
          Except.ok
            (((List.range' (k + 1) m).map fun i =>
                applyConverters (fetch (us i)).table).foldl concatTables df,
             fetched ++ (List.range' (k + 1) m).map us) := by
  intro m
  induction m with
  | zero =>
      intro k fuel hN hfuel df fetched
      have hlast : (fetch (us k)).hasNext = false := by
        rw [hnext k (by omega)]
        simp
        omega
      rw [hlast]
      cases fuel with
      | zero => simp [walkLoop]
      | succ f => simp [walkLoop]
  | succ m ih =>
      intro k fuel hN hfuel df fetched
      have hnx : (fetch (us k)).hasNext = true := by
        rw [hnext k (by omega)]
        simp
        omega
      rw [hnx]
      cases fuel with
      | zero => omega
      | succ fuel' =>
          have hinc := hchain k (by omega)
          simp only [walkLoop, if_true, hinc]
          rw [ih (k + 1) fuel' (by omega) (by omega)
            (concatTables df (applyConverters (fetch (us (k + 1))).table))
            (fetched ++ [us (k + 1)])]
          rw [List.range'_succ]
          simp [List.append_assoc]

theorem assocGet_convertRow (r : RawRow) (col : Str) :
    assocGet (convertRow r) col = (assocGet r col).map (convertCell col) := by
  induction r with
  | nil => rfl
  | cons kv rest ih =>
      obtain ⟨k, v⟩ := kv
      show assocGet ((k, convertCell k v) :: convertRow rest) col = _
      unfold assocGet
      by_cases hk : k = col
      · subst hk
        rw [if_pos rfl, if_pos rfl]
        rfl
      · rw [if_neg hk, if_neg hk, ih]

theorem convertCell_player (v : Str) : convertCell playerLabel v = Cell.str v := by
  unfold convertCell
  rw [if_neg (by decide), if_neg (by decide)]

theorem convertRow_header (r : RawRow) :
    (assocGet (convertRow r) playerLabel = some (Cell.str playerLabel)) ↔
      assocGet r playerLabel = some playerLabel := by
  rw [assocGet_convertRow]
  cases h : assocGet r playerLabel with
  | none => simp
  | some v => simp [convertCell_player, Cell.str.injEq]

theorem countP_keep_convert (raws : List RawRow) :
    (raws.map convertRow).countP keepRow = raws.countP fun r => !isHeaderRow r := by
  rw [List.countP_map]
  apply List.countP_congr
  intro r _
  simp only [Function.comp_apply, isHeaderRow, keepRow]
  rw [decide_eq_decide.mpr (convertRow_header r)]

theorem playerFilter_eq {t : Table} (h : playerLabel ∈ t.cols) :
    playerFilter t = Except.ok ⟨t.cols, t.rows.filter keepRow⟩ := by
  unfold playerFilter
  rw [if_pos h]

theorem dropUnnamed_eq {t : Table} (h : unnamedLabel ∈ t.cols) :
    dropUnnamed t = Except.ok ⟨t.cols.filter fun c => !decide (c = unnamedLabel),
      t.rows.map dropColFromRow⟩ := by
  unfold dropUnnamed
  rw [if_pos h]

theorem except_bind_ok {α β ε : Type} (a : α) (k : α → Except ε β) :
    (Except.ok a >>= k : Except ε β) = k a := rfl

theorem countP_not_eq {α : Type} (p : α → Bool) (l : List α) :
    l.countP (fun a => !p a) = l.length - l.countP p := by
  induction l with
  | nil => rfl
  | cons a rest ih =>
      rw [List.countP_cons, List.countP_cons, List.length_cons, ih]
      have hle := List.countP_le_length (p := p) (l := rest)
      cases hp : p a <;> (simp; try omega)

theorem sum_sub_of_le {f g : Nat → Nat} :
    ∀ l : List Nat, (∀ i ∈ l, g i ≤ f i) →
      (l.map fun i => f i - g i).sum = (l.map f).sum - (l.map g).sum := by
  intro l
  induction l with
  | nil => intro _; rfl
  | cons a rest ih =>
      intro h
      have hrest := ih fun i hi => h i (List.mem_cons_of_mem _ hi)
      have ha := h a (by simp)
      have hsum : (rest.map g).sum ≤ (rest.map f).sum :=
        List.sum_le_sum fun i hi => h i (List.mem_cons_of_mem _ hi)
      simp only [List.map_cons, List.sum_cons, hrest]
      omega

/-- Full behaviour of `pfr_url_to_df` on an `N`-page response: the URLs
`us 0, …, us (N-1)` chained by the offset advance, the marker present on
exactly the first `N-1` pages, and a uniform column set containing the
`Player` and `Unnamed: 7` labels. The walk fetches exactly those URLs in
order and the final frame holds all extracted rows minus the header-repeat
rows of every page. -/
theorem pfr_url_to_df_spec (fetch : Str → RawPage) (us : Nat → Str) (N fuel : Nat)
    (c0 : List Str) (hN : 1 ≤ N) (hfuel : N ≤ fuel + 1)
    (hchain : ∀ i, i + 1 < N → increase_url_offset (us i) 100 = Except.ok (us (i + 1)))
    (hnext : ∀ i, i < N → (fetch (us i)).hasNext = decide (i + 1 < N))
    (hcols : ∀ i, i < N → (fetch (us i)).table.cols = c0)
    (hp : playerLabel ∈ c0) (hu : unnamedLabel ∈ c0) :
    ∃ t : Table,
      pfr_url_to_df fetch fuel (us 0) = Except.ok (t, (List.range N).map us) ∧
      t.rows.length =
        ((List.range N).map fun i => (fetch (us i)).table.rows.length).sum -
          ((List.range N).map fun i =>
            (fetch (us i)).table.rows.countP isHeaderRow).sum := by
  obtain ⟨m, rfl⟩ : ∃ m, N = m + 1 := ⟨N - 1, by omega⟩
  have hwalk := walkLoop_spec fetch us (m + 1) hchain hnext m 0 fuel (by omega)
    (by omega) (applyConverters (fetch (us 0)).table) [us 0]
  obtain ⟨DF, hDFdef⟩ : ∃ DF, ((List.range' 1 m).map fun i =>
      applyConverters (fetch (us i)).table).foldl concatTables
        (applyConverters (fetch (us 0)).table) = DF := ⟨_, rfl⟩
  rw [hDFdef] at hwalk
  have hDFcols : DF.cols = c0 := by
    rw [← hDFdef]
    apply foldl_concat_cols
    · exact hcols 0 (by omega)
    · intro t ht
      rcases List.mem_map.mp ht with ⟨i, hi, rfl⟩
      have hilt : i < m + 1 := by
        have := List.mem_range'_1.mp hi
        omega
      exact hcols i hilt
  have hDFrows : DF.rows = (applyConverters (fetch (us 0)).table).rows ++
      (((List.range' 1 m).map fun i =>
        applyConverters (fetch (us i)).table).map Table.rows).flatten := by
    rw [← hDFdef]
    exact foldl_concat_rows _ _
  have hpcol : playerLabel ∈ DF.cols := by rw [hDFcols]; exact hp
  have hfilter := playerFilter_eq hpcol
  have hucol : unnamedLabel ∈ (⟨DF.cols, DF.rows.filter keepRow⟩ : Table).cols := by
    show unnamedLabel ∈ DF.cols
    rw [hDFcols]
    exact hu
  have hdrop := dropUnnamed_eq hucol
  refine ⟨⟨DF.cols.filter fun c => !decide (c = unnamedLabel),
    (DF.rows.filter keepRow).map dropColFromRow⟩, ?_, ?_⟩
  · simp only [pfr_url_to_df, hwalk, except_bind_ok, infer_objects, hfilter, hdrop]
    rw [List.range_eq_range', List.range'_succ]
    rfl
  · show ((DF.rows.filter keepRow).map dropColFromRow).length = _
    rw [List.length_map, ← List.countP_eq_length_filter, hDFrows,
      List.countP_append, List.countP_flatten, List.map_map]
    have hpage : ∀ i, (applyConverters (fetch (us i)).table).rows.countP keepRow =
        (fetch (us i)).table.rows.length -
          (fetch (us i)).table.rows.countP isHeaderRow := by
      intro i
      show ((fetch (us i)).table.rows.map convertRow).countP keepRow = _
      rw [countP_keep_convert, countP_not_eq]
    have hmapeq : ((List.range' 1 m).map
        ((fun r => List.countP keepRow r) ∘ Table.rows ∘
          fun i => applyConverters (fetch (us i)).table)) =
        (List.range' 1 m).map fun i => (fetch (us i)).table.rows.length -
          (fetch (us i)).table.rows.countP isHeaderRow := by
      apply List.map_congr_left
      intro i _
      exact hpage i
    rw [List.range_eq_range', List.range'_succ, List.map_cons, List.map_cons,
      List.sum_cons, List.sum_cons]
    have h0 := hpage 0
    have hsub : ((List.range' 1 m).map fun i =>
        (fetch (us i)).table.rows.length -
          (fetch (us i)).table.rows.countP isHeaderRow).sum =
        ((List.range' 1 m).map fun i => (fetch (us i)).table.rows.length).sum -
          ((List.range' 1 m).map fun i =>
            (fetch (us i)).table.rows.countP isHeaderRow).sum :=
      sum_sub_of_le (List.range' 1 m) fun i _ => List.countP_le_length _
    rw [show (0 : Nat) + 1 = 1 from rfl]
    calc (applyConverters (fetch (us 0)).table).rows.countP keepRow +
          (((List.range' 1 m).map fun i =>
            applyConverters (fetch (us i)).table).map
              (fun l => List.countP keepRow l.rows)).sum
        = ((fetch (us 0)).table.rows.length -
            (fetch (us 0)).table.rows.countP isHeaderRow) +
          ((List.range' 1 m).map fun i => (fetch (us i)).table.rows.length -
            (fetch (us i)).table.rows.countP isHeaderRow).sum := by
          rw [h0, List.map_map]
          congr 1
          apply congrArg
          apply List.map_congr_left
          intro i _
          exact hpage i
      _ = ((fetch (us 0)).table.rows.length -
            (fetch (us 0)).table.rows.countP isHeaderRow) +
          (((List.range' 1 m).map fun i => (fetch (us i)).table.rows.length).sum -
            ((List.range' 1 m).map fun i =>
              (fetch (us i)).table.rows.countP isHeaderRow).sum) := by
          rw [hsub]
      _ = (fetch (us 0)).table.rows.length +
            ((List.range' 1 m).map fun i => (fetch (us i)).table.rows.length).sum -
          ((fetch (us 0)).table.rows.countP isHeaderRow +
            ((List.range' 1 m).map fun i =>
              (fetch (us i)).table.rows.countP isHeaderRow).sum) := by
          have hle0 := List.countP_le_length (p := isHeaderRow)
            (l := (fetch (us 0)).table.rows)
          have hleS : ((List.range' 1 m).map fun i =>
              (fetch (us i)).table.rows.countP isHeaderRow).sum ≤
              ((List.range' 1 m).map fun i => (fetch (us i)).table.rows.length).sum :=
            List.sum_le_sum fun i _ => List.countP_le_length _
          omega

theorem except_bind_err {α β ε : Type} (e : ε) (k : α → Except ε β) :
    (Except.error e >>= k : Except ε β) = Except.error e := rfl

theorem playerFilter_ok_elim {t F : Table} (h : playerFilter t = Except.ok F) :
    F = ⟨t.cols, t.rows.filter keepRow⟩ := by
  unfold playerFilter at h
  by_cases hp : playerLabel ∈ t.cols
  · rw [if_pos hp] at h
    simp only [Except.ok.injEq] at h
    exact h.symm
  · rw [if_neg hp] at h
    exact absurd h (by simp)

theorem dropUnnamed_ok_elim {t D : Table} (h : dropUnnamed t = Except.ok D) :
    D = ⟨t.cols.filter fun c => !decide (c = unnamedLabel),
         t.rows.map dropColFromRow⟩ := by
  unfold dropUnnamed at h
  by_cases hp : unnamedLabel ∈ t.cols
  · rw [if_pos hp] at h
    simp only [Except.ok.injEq] at h
    exact h.symm
  · rw [if_neg hp] at h
    exact absurd h (by simp)

/-- Inversion of any successful `pfr_url_to_df` run: the returned frame is the
header-filtered, column-dropped form of the concatenated walk result. -/
theorem pfr_url_to_df_ok_elim {fetch : Str → RawPage} {fuel : Nat} {url : Str}
    {t : Table} {urls : List Str}
    (h : pfr_url_to_df fetch fuel url = Except.ok (t, urls)) :
    ∃ DF : Table, t = ⟨DF.cols.filter fun c => !decide (c = unnamedLabel),
      (DF.rows.filter keepRow).map dropColFromRow⟩ := by
  simp only [pfr_url_to_df] at h
  cases hw : walkLoop fetch fuel url (fetch url).hasNext
      (applyConverters (fetch url).table) [url] with
  | error e =>
      rw [hw, except_bind_err] at h
      exact absurd h (by simp)
  | ok walked =>
      rw [hw, except_bind_ok] at h
      cases hf : playerFilter walked.1 with
      | error e =>
          rw [hf, except_bind_err] at h
          exact absurd h (by simp)
      | ok F =>
          rw [hf, except_bind_ok] at h
          cases hd : dropUnnamed (infer_objects F) with
          | error e =>
              rw [hd, except_bind_err] at h
              exact absurd h (by simp)
          | ok D =>
              rw [hd] at h
              have ht : t = D := by
                have h2 : Except.ok (D, walked.2) =
                    (Except.ok (t, urls) : Except WalkErr (Table × List Str)) := h
                simp only [Except.ok.injEq, Prod.mk.injEq] at h2
                exact h2.1.symm
              refine ⟨walked.1, ?_⟩
              rw [ht, dropUnnamed_ok_elim hd, playerFilter_ok_elim hf]
              rfl

theorem assocGet_cons {α : Type} (k' : Str) (v : α) (rest : List (Str × α)) (k : Str) :
    assocGet ((k', v) :: rest) k = if k' = k then some v else assocGet rest k := rfl

theorem assocGet_dropColFromRow (r : Row) (k : Str) (hk : k ≠ unnamedLabel) :
    assocGet (dropColFromRow r) k = assocGet r k := by
  induction r with
  | nil => rfl
  | cons kv rest ih =>
      obtain ⟨k', c⟩ := kv
      by_cases hdrop : k' = unnamedLabel
      · have hstep : dropColFromRow ((k', c) :: rest) = dropColFromRow rest := by
          unfold dropColFromRow
          rw [List.filter_cons, if_neg (by simp [hdrop])]
        rw [hstep, ih, assocGet_cons,
          if_neg (by rw [hdrop]; exact fun hc => hk hc.symm)]
      · have hstep : dropColFromRow ((k', c) :: rest) =
            (k', c) :: dropColFromRow rest := by
          unfold dropColFromRow
          rw [List.filter_cons, if_pos (by simp [hdrop])]
        rw [hstep, assocGet_cons, assocGet_cons, ih]

/-- No row of a frame returned by `pfr_url_to_df` has the header token in its
`Player` cell. -/
theorem pfr_result_no_header {fetch : Str → RawPage} {fuel : Nat} {url : Str}
    {t : Table} {urls : List Str}
    (h : pfr_url_to_df fetch fuel url = Except.ok (t, urls)) :
    ∀ r ∈ t.rows, assocGet r playerLabel ≠ some (Cell.str playerLabel) := by
  obtain ⟨DF, ht⟩ := pfr_url_to_df_ok_elim h
  intro r hr
  rw [ht] at hr
  rcases List.mem_map.mp hr with ⟨r0, hr0, rfl⟩
  have hkeep : keepRow r0 = true := (List.mem_filter.mp hr0).2
  unfold keepRow at hkeep
  rw [assocGet_dropColFromRow r0 playerLabel (by decide)]
  simpa using hkeep

/-- Along a successful sweep the no-header-row invariant of the accumulator is
preserved, since every appended frame comes out of `pfr_url_to_df`. -/
theorem sweep_no_header {fetch : Str → RawPage} {fuel : Nat} {p : Position} :
    ∀ (qs : List (Int × Int)) (agg : Table) (urls : List Str)
      (r : Table × List Str),
      sweep fetch fuel p qs agg urls = Except.ok r →
      (∀ x ∈ agg.rows, assocGet x playerLabel ≠ some (Cell.str playerLabel)) →
      ∀ x ∈ r.1.rows, assocGet x playerLabel ≠ some (Cell.str playerLabel) := by
  intro qs
  induction qs with
  | nil =>
      intro agg urls r h hagg
      simp only [sweep, Except.ok.injEq] at h
      rw [← h]
      exact hagg
  | cons yw rest ih =>
      intro agg urls r h hagg
      obtain ⟨y, w⟩ := yw
      simp only [sweep] at h
      cases hq : pfr_url_to_df fetch fuel (build_pfr_url y w p 0) with
      | error e =>
          rw [hq] at h
          exact absurd h (by simp)
      | ok r0 =>
          obtain ⟨t0, u0⟩ := r0
          rw [hq] at h
          have h2 : sweep fetch fuel p rest (concatTables agg t0) (urls ++ u0) =
              Except.ok r := h
          apply ih (concatTables agg t0) (urls ++ u0) r h2
          intro x hx
          rcases List.mem_append.mp hx with hx | hx
          · exact hagg x hx
          · exact pfr_result_no_header hq x hx

/-- Inversion of a successful driver run: four sweeps succeed, one per
position in declaration order, and the trace is exactly each sweep's fetches
followed by one persist to that position's table name. -/
theorem runMain_ok_elim {fetch : Str → RawPage} {fuel : Nat} {trace : List Event}
    (h : runMain fetch fuel = Except.ok trace) :
    ∃ (t1 t2 t3 t4 : Table) (u1 u2 u3 u4 : List Str),
      sweep fetch fuel .QB yearWeekPairs emptyTable [] = Except.ok (t1, u1) ∧
      sweep fetch fuel .RB yearWeekPairs emptyTable [] = Except.ok (t2, u2) ∧
      sweep fetch fuel .REC yearWeekPairs emptyTable [] = Except.ok (t3, u3) ∧
      sweep fetch fuel .DEF yearWeekPairs emptyTable [] = Except.ok (t4, u4) ∧
      trace = u1.map Event.fetchEv ++ Event.persistEv ("quarterbacks".toList) t1 ::
        (u2.map Event.fetchEv ++ Event.persistEv ("runningbacks".toList) t2 ::
          (u3.map Event.fetchEv ++ Event.persistEv ("receivers".toList) t3 ::
            (u4.map Event.fetchEv ++ [Event.persistEv ("defense".toList) t4]))) := by
  unfold runMain positionList at h
  cases h1 : sweep fetch fuel .QB yearWeekPairs emptyTable [] with
  | error e =>
      simp only [mainLoop, h1] at h
      exact absurd h (by simp)
  | ok r1 =>
      obtain ⟨t1, u1⟩ := r1
      cases h2 : sweep fetch fuel .RB yearWeekPairs emptyTable [] with
      | error e =>
      simp only [mainLoop, h1, h2] at h
      exact absurd h (by simp)
      | ok r2 =>
          obtain ⟨t2, u2⟩ := r2
          cases h3 : sweep fetch fuel .REC yearWeekPairs emptyTable [] with
          | error e =>
      simp only [mainLoop, h1, h2, h3] at h
      exact absurd h (by simp)
          | ok r3 =>
              obtain ⟨t3, u3⟩ := r3
              cases h4 : sweep fetch fuel .DEF yearWeekPairs emptyTable [] with
              | error e =>
      simp only [mainLoop, h1, h2, h3, h4] at h
      exact absurd h (by simp)
              | ok r4 =>
                  obtain ⟨t4, u4⟩ := r4
                  refine ⟨t1, t2, t3, t4, u1, u2, u3, u4, rfl, rfl, rfl, rfl, ?_⟩
                  simp only [mainLoop, h1, h2, h3, h4, Except.ok.injEq] at h
                  rw [← h]
                  rfl

theorem assocGet_to_sql_self (st : Store) (n : Str) (t : Table) :
    assocGet (to_sql_replace st n t) n = some t := by
  unfold to_sql_replace
  rw [assocGet_cons, if_pos rfl]

theorem assocGet_filter_store {st : Store} {n key : Str} (h : key ≠ n) :
    assocGet (st.filter fun kv => !decide (kv.1 = n)) key = assocGet st key := by
  induction st with
  | nil => rfl
  | cons kv rest ih =>
      obtain ⟨k, v⟩ := kv
      rw [List.filter_cons]
      by_cases hk : k = n
      · rw [if_neg (by simp [hk]), ih, assocGet_cons,
          if_neg (by rw [hk]; exact fun hc => h hc.symm)]
      · rw [if_pos (by simp [hk]), assocGet_cons, assocGet_cons]
        by_cases hkk : k = key
        · rw [if_pos hkk, if_pos hkk]
        · rw [if_neg hkk, if_neg hkk, ih]

theorem assocGet_to_sql_other {st : Store} {n key : Str} (t : Table) (h : key ≠ n) :
    assocGet (to_sql_replace st n t) key = assocGet st key := by
  unfold to_sql_replace
  rw [assocGet_cons, if_neg fun hc => h hc.symm]
  exact assocGet_filter_store h

theorem applyEvents_append (st : Store) (evs1 evs2 : List Event) :
    applyEvents st (evs1 ++ evs2) = applyEvents (applyEvents st evs1) evs2 :=
  List.foldl_append applyEvent st evs1 evs2

theorem applyEvents_fetches (st : Store) (urls : List Str) :
    applyEvents st (urls.map Event.fetchEv) = st := by
  induction urls generalizing st with
  | nil => rfl
  | cons u rest ih => exact ih st

theorem applyEvents_persist_cons (st : Store) (n : Str) (t : Table)
    (evs : List Event) :
    applyEvents st (Event.persistEv n t :: evs) =
      applyEvents (to_sql_replace st n t) evs := rfl

/-- C3: for every (season, week, position), applying `increase_url_offset`
k times (k ≥ 1, default increment) to the URL built at offset 0 yields a URL
whose offset query parameter equals 100·k, and along the way the offset grows
by exactly 100 on each application, never decreasing. -/
theorem C3_offset_iteration (y w : Int) (p : Position) (k : Nat) (hk : 1 ≤ k) :
    (∃ u, advanceN k (build_pfr_url y w p 0) = Except.ok u ∧
      offsetOf u = some (100 * (k : Int))) ∧
    ∀ i : Nat, i < k →
      ∃ u u', advanceN i (build_pfr_url y w p 0) = Except.ok u ∧
        advanceN (i + 1) (build_pfr_url y w p 0) = Except.ok u' ∧
        offsetOf u = some (100 * (i : Int)) ∧
        offsetOf u' = some (100 * (i : Int) + 100) := by
  have hstep : ∀ j : Nat, advanceN j (build_pfr_url y w p 0) =
      Except.ok (build_pfr_url y w p (100 * (j : Int))) := by
    intro j
    have h := advanceN_build y w p j 0
    rw [show (0 : Int) + 100 * (j : Int) = 100 * (j : Int) from by ring] at h
    exact h
  constructor
  · exact ⟨_, hstep k, offsetOf_build y w p _⟩
  · intro i _
    refine ⟨_, _, hstep i, hstep (i + 1), offsetOf_build y w p _, ?_⟩
    have hcast : (100 : Int) * (((i + 1 : Nat)) : Int) = 100 * (i : Int) + 100 := by
      push_cast
      ring
    rw [offsetOf_build y w p _, hcast]

theorem C3_offset_iteration_witness :
    ∃ u, advanceN 1 (build_pfr_url 2019 1 Position.QB 0) = Except.ok u ∧
      offsetOf u = some (100 * ((1 : Nat) : Int)) :=
  (C3_offset_iteration 2019 1 Position.QB 1 (by decide)).1

/-- C7: `increase_url_offset` fails exactly when the URL has no parseable
first `offset` query value; on every URL that carries one it succeeds and
returns a URL whose offset is increased by the increment. -/
theorem C7_malformed_query (url : Str) :
    (offsetOf url = none → ∃ e, increase_url_offset url 100 = Except.error e) ∧
    ∀ n : Int, offsetOf url = some n →
      ∃ u', increase_url_offset url 100 = Except.ok u' ∧
        offsetOf u' = some (n + 100) := by
  constructor
  · exact increase_url_offset_err 100
  · intro n hn
    obtain ⟨u', h1, h2, _, _⟩ := increase_url_offset_ok 100 hn
    exact ⟨u', h1, h2⟩

theorem C7_malformed_query_witness :
    ∃ u', increase_url_offset (build_pfr_url 2019 1 Position.QB 0) 100 =
        Except.ok u' ∧
      offsetOf u' = some (0 + 100) :=
  (C7_malformed_query (build_pfr_url 2019 1 Position.QB 0)).2 0
    (offsetOf_build 2019 1 Position.QB 0)

/-- C8: every URL produced by `build_pfr_url` carries a parseable `offset`
query parameter, and any number of offset advances starting from such a URL
stays on built URLs and never reaches the MalformedQuery error branch. -/
theorem C8_offset_unreachable_error (y w off : Int) (p : Position) (k : Nat) :
    offsetOf (build_pfr_url y w p off) = some off ∧
    advanceN k (build_pfr_url y w p off) =
      Except.ok (build_pfr_url y w p (off + 100 * (k : Int))) :=
  ⟨offsetOf_build y w p off, advanceN_build y w p k off⟩

/-- C10: on every URL produced by `build_pfr_url`, the offset advance changes
only the `offset` query parameter: it succeeds, the URL prefix (scheme, host
and path) is unchanged, and every other query parameter keeps its value. -/
theorem C10_advance_frame (y w off : Int) (p : Position) (key : Str)
    (hkey : key ≠ offsetKey) :
    ∃ u', increase_url_offset (build_pfr_url y w p off) 100 = Except.ok u' ∧
      (UrlLib.urlparse u').1 = (UrlLib.urlparse (build_pfr_url y w p off)).1 ∧
      assocGet (UrlLib.parse_qs (UrlLib.urlparse u').2) key =
        assocGet (UrlLib.parse_qs
          (UrlLib.urlparse (build_pfr_url y w p off)).2) key := by
  obtain ⟨u', h1, _, h3, h4⟩ := increase_url_offset_ok 100 (offsetOf_build y w p off)
  exact ⟨u', h1, h3, h4 key hkey⟩

theorem applyEvents_nil (st : Store) : applyEvents st [] = st := rfl

theorem countP_isPersist_fetches (urls : List Str) :
    (urls.map Event.fetchEv).countP Event.isPersist = 0 := by
  rw [List.countP_map]
  apply List.countP_eq_zero.mpr
  intro u _
  simp [Event.isPersist, Function.comp]

/-- C1: for every query whose response spans N pages (the Next Page marker on
exactly the first N−1 pages) with a uniform column set containing the Player
and Unnamed: 7 labels, the pagination walk of `pfr_url_to_df` fetches exactly
the N chained URLs and returns a row sequence whose length is the total page
size minus the number of header-repeat rows across all N pages. -/
theorem C1_walk_row_count (y w : Int) (p : Position) (fetch : Str → RawPage)
    (N fuel : Nat) (c0 : List Str) (hN : 1 ≤ N) (hfuel : N ≤ fuel + 1)
    (hnext : ∀ i, i < N →
      (fetch (build_pfr_url y w p (100 * (i : Int)))).hasNext = decide (i + 1 < N))
    (hcols : ∀ i, i < N →
      (fetch (build_pfr_url y w p (100 * (i : Int)))).table.cols = c0)
    (hp : playerLabel ∈ c0) (hu : unnamedLabel ∈ c0) :
    ∃ t : Table,
      pfr_url_to_df fetch fuel (build_pfr_url y w p 0) =
        Except.ok (t, (List.range N).map fun (i : Nat) =>
          build_pfr_url y w p (100 * (i : Int))) ∧
      t.rows.length =
        ((List.range N).map fun (i : Nat) =>
          (fetch (build_pfr_url y w p (100 * (i : Int)))).table.rows.length).sum -
        ((List.range N).map fun (i : Nat) =>
          (fetch (build_pfr_url y w p (100 * (i : Int)))).table.rows.countP
            isHeaderRow).sum := by
  have h0 : build_pfr_url y w p (100 * ((0 : Nat) : Int)) =
      build_pfr_url y w p 0 := by norm_num
  have hchain : ∀ i, i + 1 < N →
      increase_url_offset (build_pfr_url y w p (100 * (i : Int))) 100 =
        Except.ok (build_pfr_url y w p (100 * ((i + 1 : Nat) : Int))) := by
    intro i _
    rw [increase_build]
    have hc : (100 : Int) * (i : Int) + 100 = 100 * ((i + 1 : Nat) : Int) := by
      push_cast
      ring
    rw [hc]
  have hspec := pfr_url_to_df_spec fetch
    (fun (i : Nat) => build_pfr_url y w p (100 * (i : Int))) N fuel c0 hN hfuel
    hchain hnext hcols hp hu
  simp only [] at hspec
  rw [h0] at hspec
  exact hspec

theorem C1_walk_row_count_witness :
    ∃ t : Table,
      pfr_url_to_df w1fetch 0 (build_pfr_url 2019 1 Position.QB 0) =
        Except.ok (t, (List.range 1).map fun (i : Nat) =>
          build_pfr_url 2019 1 Position.QB (100 * (i : Int))) ∧
      t.rows.length =
        ((List.range 1).map fun (i : Nat) =>
          (w1fetch (build_pfr_url 2019 1 Position.QB
            (100 * (i : Int)))).table.rows.length).sum -
        ((List.range 1).map fun (i : Nat) =>
          (w1fetch (build_pfr_url 2019 1 Position.QB
            (100 * (i : Int)))).table.rows.countP isHeaderRow).sum :=
  C1_walk_row_count 2019 1 Position.QB w1fetch 1 0 w1cols (by decide) (by decide)
    (fun i hi => by
      have hi0 : i = 0 := by omega
      subst hi0
      rfl)
    (fun i _ => rfl) (by decide) (by decide)

/-- C2: in the two-page scenario for season 2019, week 1, passing category —
page sizes 100 and 37, marker only on the first page — `pfr_url_to_df`
performs exactly two fetches, at the URLs whose offsets are 0 and 100, and
returns 137 rows minus the header-repeat rows of both pages. -/
theorem C2_two_page_scenario (fetch : Str → RawPage) (fuel : Nat) (c0 : List Str)
    (t0 t1 : RawTable) (hfuel : 1 ≤ fuel)
    (h0 : fetch (build_pfr_url 2019 1 Position.QB 0) = ⟨true, t0⟩)
    (h1 : fetch (build_pfr_url 2019 1 Position.QB 100) = ⟨false, t1⟩)
    (hc0 : t0.cols = c0) (hc1 : t1.cols = c0)
    (hp : playerLabel ∈ c0) (hu : unnamedLabel ∈ c0)
    (hs0 : t0.rows.length = 100) (hs1 : t1.rows.length = 37) :
    offsetOf (build_pfr_url 2019 1 Position.QB 0) = some 0 ∧
    offsetOf (build_pfr_url 2019 1 Position.QB 100) = some 100 ∧
    ∃ t : Table,
      pfr_url_to_df fetch fuel (build_pfr_url 2019 1 Position.QB 0) =
        Except.ok (t, [build_pfr_url 2019 1 Position.QB 0,
                       build_pfr_url 2019 1 Position.QB 100]) ∧
      t.rows.length =
        137 - (t0.rows.countP isHeaderRow + t1.rows.countP isHeaderRow) := by
  have e0 : build_pfr_url 2019 1 Position.QB (100 * ((0 : Nat) : Int)) =
      build_pfr_url 2019 1 Position.QB 0 := by norm_num
  have e1 : build_pfr_url 2019 1 Position.QB (100 * ((1 : Nat) : Int)) =
      build_pfr_url 2019 1 Position.QB 100 := by norm_num
  refine ⟨offsetOf_build 2019 1 Position.QB 0, offsetOf_build 2019 1 Position.QB 100, ?_⟩
  have hchain : ∀ i : Nat, i + 1 < 2 →
      increase_url_offset (build_pfr_url 2019 1 Position.QB (100 * (i : Int))) 100 =
        Except.ok (build_pfr_url 2019 1 Position.QB (100 * ((i + 1 : Nat) : Int))) := by
    intro i hi
    have hi0 : i = 0 := by omega
    subst hi0
    rw [e0, increase_build]
    norm_num
  have hnext : ∀ i : Nat, i < 2 →
      (fetch (build_pfr_url 2019 1 Position.QB (100 * (i : Int)))).hasNext =
        decide (i + 1 < 2) := by
    intro i hi
    match i, hi with
    | 0, _ => rw [e0, h0]; rfl
    | 1, _ => rw [e1, h1]; rfl
  have hcols : ∀ i : Nat, i < 2 →
      (fetch (build_pfr_url 2019 1 Position.QB (100 * (i : Int)))).table.cols = c0 := by
    intro i hi
    match i, hi with
    | 0, _ => rw [e0, h0]; exact hc0
    | 1, _ => rw [e1, h1]; exact hc1
  have hspec := pfr_url_to_df_spec fetch
    (fun (i : Nat) => build_pfr_url 2019 1 Position.QB (100 * (i : Int))) 2 fuel c0
    (by omega) (by omega) hchain hnext hcols hp hu
  have hr2 : List.range 2 = [0, 1] := rfl
  rw [hr2] at hspec
  simp only [List.map_cons, List.map_nil, List.sum_cons, List.sum_nil] at hspec
  rw [e0, e1, h0, h1] at hspec
  obtain ⟨t, hok, hlen⟩ := hspec
  refine ⟨t, hok, ?_⟩
  rw [hlen]
  simp only at hlen ⊢
  rw [hs0, hs1]
  omega

set_option maxRecDepth 40000 in
theorem C2_two_page_scenario_witness :
    offsetOf (build_pfr_url 2019 1 Position.QB 0) = some 0 ∧
    offsetOf (build_pfr_url 2019 1 Position.QB 100) = some 100 ∧
    ∃ t : Table,
      pfr_url_to_df w2fetch 1 (build_pfr_url 2019 1 Position.QB 0) =
        Except.ok (t, [build_pfr_url 2019 1 Position.QB 0,
                       build_pfr_url 2019 1 Position.QB 100]) ∧
      t.rows.length =
        137 - (w2page1.table.rows.countP isHeaderRow +
          w2page2.table.rows.countP isHeaderRow) :=
  C2_two_page_scenario w2fetch 1 w1cols w2page1.table w2page2.table (by decide)
    (by decide) (by decide) rfl rfl (by decide) (by decide) (by decide) (by decide)

/-- C9: for a query whose response is a single page with zero data rows and no
Next Page marker, `pfr_url_to_df` performs exactly one fetch and returns an
empty row sequence. -/
theorem C9_empty_single_page (fetch : Str → RawPage) (fuel : Nat) (url : Str)
    (c0 : List Str)
    (hnext : (fetch url).hasNext = false)
    (hrows : (fetch url).table.rows = [])
    (hcols : (fetch url).table.cols = c0)
    (hp : playerLabel ∈ c0) (hu : unnamedLabel ∈ c0) :
    ∃ t : Table, pfr_url_to_df fetch fuel url = Except.ok (t, [url]) ∧
      t.rows = [] := by
  have hwalk : walkLoop fetch fuel url (fetch url).hasNext
      (applyConverters (fetch url).table) [url] =
      Except.ok (applyConverters (fetch url).table, [url]) := by
    rw [hnext]
    cases fuel with
    | zero => simp [walkLoop]
    | succ f => simp [walkLoop]
  have hdfcols : (applyConverters (fetch url).table).cols = c0 := hcols
  have hpcol : playerLabel ∈ (applyConverters (fetch url).table).cols := by
    rw [hdfcols]
    exact hp
  have hfilter := playerFilter_eq hpcol
  have hucol : unnamedLabel ∈ (⟨(applyConverters (fetch url).table).cols,
      (applyConverters (fetch url).table).rows.filter keepRow⟩ : Table).cols := by
    show unnamedLabel ∈ (applyConverters (fetch url).table).cols
    rw [hdfcols]
    exact hu
  have hdrop := dropUnnamed_eq hucol
  refine ⟨⟨(applyConverters (fetch url).table).cols.filter
      fun c => !decide (c = unnamedLabel),
    ((applyConverters (fetch url).table).rows.filter keepRow).map
      dropColFromRow⟩, ?_, ?_⟩
  · simp only [pfr_url_to_df, hwalk, except_bind_ok, infer_objects, hfilter, hdrop]
    rfl
  · show (((applyConverters (fetch url).table).rows.filter keepRow).map
      dropColFromRow) = []
    have : (applyConverters (fetch url).table).rows = [] := by
      show (fetch url).table.rows.map convertRow = []
      rw [hrows]
      rfl
    rw [this]
    rfl

theorem C9_empty_single_page_witness :
    ∃ t : Table, pfr_url_to_df w1fetch 5 (build_pfr_url 2010 1 Position.RB 0) =
        Except.ok (t, [build_pfr_url 2010 1 Position.RB 0]) ∧
      t.rows = [] :=
  C9_empty_single_page w1fetch 5 (build_pfr_url 2010 1 Position.RB 0) w1cols
    rfl rfl rfl (by decide) (by decide)

/-- C4: on any successful run, the driver issues exactly four persistence
calls, one per position, addressed to that position's table name, each only
after that position's full season/week sweep (its block of fetch events), and
each write fully replaces any prior contents of that table in the store. -/
theorem C4_driver_persistence (fetch : Str → RawPage) (fuel : Nat)
    (h : (runMain fetch fuel).isOk = true) :
    ∃ (trace : List Event) (t1 t2 t3 t4 : Table) (f1 f2 f3 f4 : List Event),
      runMain fetch fuel = Except.ok trace ∧
      trace = f1 ++ Event.persistEv ("quarterbacks".toList) t1 ::
        (f2 ++ Event.persistEv ("runningbacks".toList) t2 ::
          (f3 ++ Event.persistEv ("receivers".toList) t3 ::
            (f4 ++ [Event.persistEv ("defense".toList) t4]))) ∧
      (∀ e ∈ f1 ++ f2 ++ f3 ++ f4, e.isFetch = true) ∧
      trace.countP Event.isPersist = 4 ∧
      ∀ st : Store,
        assocGet (applyEvents st trace) ("quarterbacks".toList) = some t1 ∧
        assocGet (applyEvents st trace) ("runningbacks".toList) = some t2 ∧
        assocGet (applyEvents st trace) ("receivers".toList) = some t3 ∧
        assocGet (applyEvents st trace) ("defense".toList) = some t4 := by
  cases hrun : runMain fetch fuel with
  | error e =>
      rw [hrun] at h
      exact absurd h (by simp [Except.isOk, Except.toBool])
  | ok trace =>
      obtain ⟨t1, t2, t3, t4, u1, u2, u3, u4, _, _, _, _, htrace⟩ :=
        runMain_ok_elim hrun
      refine ⟨trace, t1, t2, t3, t4, u1.map Event.fetchEv, u2.map Event.fetchEv,
        u3.map Event.fetchEv, u4.map Event.fetchEv, rfl, htrace, ?_, ?_, ?_⟩
      · intro e he
        rcases List.mem_append.mp he with he | he
        rotate_left
        · rcases List.mem_map.mp he with ⟨u, _, rfl⟩; rfl
        rcases List.mem_append.mp he with he | he
        rotate_left
        · rcases List.mem_map.mp he with ⟨u, _, rfl⟩; rfl
        rcases List.mem_append.mp he with he | he
        · rcases List.mem_map.mp he with ⟨u, _, rfl⟩; rfl
        · rcases List.mem_map.mp he with ⟨u, _, rfl⟩; rfl
      · rw [htrace]
        simp only [List.countP_append, List.countP_cons, countP_isPersist_fetches]
        rfl
      · intro st
        have hfinal : applyEvents st trace =
            to_sql_replace (to_sql_replace (to_sql_replace
              (to_sql_replace st ("quarterbacks".toList) t1)
              ("runningbacks".toList) t2) ("receivers".toList) t3)
              ("defense".toList) t4 := by
          rw [htrace]
          simp only [applyEvents_append, applyEvents_fetches,
            applyEvents_persist_cons, applyEvents_nil]
        rw [hfinal]
        refine ⟨?_, ?_, ?_, ?_⟩
        · rw [assocGet_to_sql_other _ (by decide), assocGet_to_sql_other _ (by decide),
            assocGet_to_sql_other _ (by decide), assocGet_to_sql_self]
        · rw [assocGet_to_sql_other _ (by decide), assocGet_to_sql_other _ (by decide),
            assocGet_to_sql_self]
        · rw [assocGet_to_sql_other _ (by decide), assocGet_to_sql_self]
        · rw [assocGet_to_sql_self]

set_option maxRecDepth 40000 in
theorem C4_driver_persistence_witness :
    ∃ (trace : List Event) (t1 t2 t3 t4 : Table) (f1 f2 f3 f4 : List Event),
      runMain w1fetch 0 = Except.ok trace ∧
      trace = f1 ++ Event.persistEv ("quarterbacks".toList) t1 ::
        (f2 ++ Event.persistEv ("runningbacks".toList) t2 ::
          (f3 ++ Event.persistEv ("receivers".toList) t3 ::
            (f4 ++ [Event.persistEv ("defense".toList) t4]))) ∧
      (∀ e ∈ f1 ++ f2 ++ f3 ++ f4, e.isFetch = true) ∧
      trace.countP Event.isPersist = 4 ∧
      ∀ st : Store,
        assocGet (applyEvents st trace) ("quarterbacks".toList) = some t1 ∧
        assocGet (applyEvents st trace) ("runningbacks".toList) = some t2 ∧
        assocGet (applyEvents st trace) ("receivers".toList) = some t3 ∧
        assocGet (applyEvents st trace) ("defense".toList) = some t4 :=
  C4_driver_persistence w1fetch 0 (by decide)

/-- C5: on any successful run, no row whose Player cell equals the literal
header token appears in any frame handed to the persister. -/
theorem C5_no_header_rows_persisted (fetch : Str → RawPage) (fuel : Nat)
    (h : (runMain fetch fuel).isOk = true) :
    ∃ trace, runMain fetch fuel = Except.ok trace ∧
      ∀ n t, Event.persistEv n t ∈ trace →
        ∀ r ∈ t.rows, assocGet r playerLabel ≠ some (Cell.str playerLabel) := by
  cases hrun : runMain fetch fuel with
  | error e =>
      rw [hrun] at h
      exact absurd h (by simp [Except.isOk, Except.toBool])
  | ok trace =>
      obtain ⟨t1, t2, t3, t4, u1, u2, u3, u4, hs1, hs2, hs3, hs4, htrace⟩ :=
        runMain_ok_elim hrun
      refine ⟨trace, rfl, ?_⟩
      intro n t hmem
      have hempty : ∀ x ∈ emptyTable.rows,
          assocGet x playerLabel ≠ some (Cell.str playerLabel) := by
        intro x hx
        simp [emptyTable] at hx
      have hnotfetch : ∀ (us : List Str),
          Event.persistEv n t ∈ us.map Event.fetchEv → False := by
        intro us hin
        rcases List.mem_map.mp hin with ⟨u, _, hequ⟩
        exact absurd hequ (by simp)
      rw [htrace] at hmem
      rcases List.mem_append.mp hmem with hmem | hmem
      · exact absurd hmem (fun hc => hnotfetch u1 hc)
      rcases List.mem_cons.mp hmem with hmem | hmem
      · have ht : t = t1 := by
          simp only [Event.persistEv.injEq] at hmem
          exact hmem.2
        rw [ht]
        exact sweep_no_header yearWeekPairs emptyTable [] (t1, u1) hs1 hempty
      rcases List.mem_append.mp hmem with hmem | hmem
      · exact absurd hmem (fun hc => hnotfetch u2 hc)
      rcases List.mem_cons.mp hmem with hmem | hmem
      · have ht : t = t2 := by
          simp only [Event.persistEv.injEq] at hmem
          exact hmem.2
        rw [ht]
        exact sweep_no_header yearWeekPairs emptyTable [] (t2, u2) hs2 hempty
      rcases List.mem_append.mp hmem with hmem | hmem
      · exact absurd hmem (fun hc => hnotfetch u3 hc)
      rcases List.mem_cons.mp hmem with hmem | hmem
      · have ht : t = t3 := by
          simp only [Event.persistEv.injEq] at hmem
          exact hmem.2
        rw [ht]
        exact sweep_no_header yearWeekPairs emptyTable [] (t3, u3) hs3 hempty
      rcases List.mem_append.mp hmem with hmem | hmem
      · exact absurd hmem (fun hc => hnotfetch u4 hc)
      · simp only [List.mem_singleton, Event.persistEv.injEq] at hmem
        rw [hmem.2]
        exact sweep_no_header yearWeekPairs emptyTable [] (t4, u4) hs4 hempty

set_option maxRecDepth 40000 in
theorem C5_no_header_rows_persisted_witness :
    ∃ trace, runMain w1fetch 0 = Except.ok trace ∧
      ∀ n t, Event.persistEv n t ∈ trace →
        ∀ r ∈ t.rows, assocGet r playerLabel ≠ some (Cell.str playerLabel) :=
  C5_no_header_rows_persisted w1fetch 0 (by decide)

/-- C6 (amended): coercion of the named numeric and date columns never fails —
an unconvertible value is retained as the original string — and the post-walk
normalization returns normally on every extracted frame whose columns include
the Player and Unnamed: 7 labels; it raises a missing-column error when either
is absent. -/
theorem C6_normalization_permissive :
    (∀ col v, col ∈ numericCols → str_to_rat v = none →
      convertCell col v = Cell.str v) ∧
    (∀ v, str_to_date v = none → convertCell dateCol v = Cell.str v) ∧
    (∀ t : Table, playerLabel ∈ t.cols → unnamedLabel ∈ t.cols →
      ∃ t', normalizeTable t = Except.ok t') := by
  refine ⟨?_, ?_, ?_⟩
  · intro col v hcol hfail
    unfold convertCell
    rw [if_pos hcol, hfail]
  · intro v hfail
    unfold convertCell
    rw [if_neg (by decide), if_pos rfl, hfail]
  · intro t hp hu
    have hfilter := playerFilter_eq hp
    have hucol : unnamedLabel ∈ (⟨t.cols, t.rows.filter keepRow⟩ : Table).cols := hu
    have hdrop := dropUnnamed_eq hucol
    have hnorm : normalizeTable t = Except.ok
        ⟨t.cols.filter fun c => !decide (c = unnamedLabel),
         (t.rows.filter keepRow).map dropColFromRow⟩ := by
      simp only [normalizeTable, hfilter, except_bind_ok, infer_objects, hdrop]
    exact ⟨_, hnorm⟩

theorem C6_normalization_permissive_witness :
    convertCell ("Rk".toList) ("abc".toList) = Cell.str ("abc".toList) ∧
    ∃ t', normalizeTable ⟨[playerLabel, unnamedLabel], []⟩ = Except.ok t' :=
  ⟨C6_normalization_permissive.1 ("Rk".toList) ("abc".toList) (by decide) (by decide),
   C6_normalization_permissive.2.2 ⟨[playerLabel, unnamedLabel], []⟩
     (by decide) (by decide)⟩

/-- C6 counterexample: the claim that row normalization returns normally on
every extracted row sequence is false — on a frame without the Unnamed: 7
column the normalization of `pfr_url_to_df` raises a KeyError. -/
theorem C6_normalization_counterexample :
    normalizeTable ⟨[playerLabel], []⟩ = Except.error WalkErr.unnamedMissing := rfl

theorem C10_advance_frame_witness :
    ∃ u', increase_url_offset (build_pfr_url 2019 1 Position.QB 0) 100 =
        Except.ok u' ∧
      (UrlLib.urlparse u').1 =
        (UrlLib.urlparse (build_pfr_url 2019 1 Position.QB 0)).1 ∧
      assocGet (UrlLib.parse_qs (UrlLib.urlparse u').2) ("request".toList) =
        assocGet (UrlLib.parse_qs
          (UrlLib.urlparse (build_pfr_url 2019 1 Position.QB 0)).2)
          ("request".toList) :=
  C10_advance_frame 2019 1 0 Position.QB ("request".toList) (by decide)

end NflData
